import Mathlib

/-
Verification of the narrator-resolution core of the hadathanaBackendApp
repository: the Arabic-name normalizer, the identity-registry builders with
collision detection, the canonical-name resolution procedure with its
disambiguation heuristics, the 4-pass resolution pipeline of
`resolve_remaining_narrators.py`, and the lookup builder of
`enrich_narrator_ids.py`.

Strings are modelled as `List Char`.  The one piece of behaviour external to
the repository is `unicodedata.category(c) == "Mn"` (the Unicode non-spacing
mark test): it is threaded through the development as an explicit predicate
`mn : Char → Bool`, and concrete statements instantiate it with `mnModel`,
which decides the Mn code points relevant to the corpus (the Arabic tashkeel
block and the combining-diacritics block).
-/

namespace Resolver

abbrev Str := List Char

/-- Shorthand turning a string literal into its character list. -/
def str (s : String) : Str := s.data

/-- The tashkeel character class of `_TASHKEEL_RE` (identical in
`enrich_narrator_ids.py` and `resolve_remaining_narrators.py`). -/
def isTashkeel (c : Char) : Bool :=
  (0x610 ≤ c.toNat && c.toNat ≤ 0x61A) ||
  (0x64B ≤ c.toNat && c.toNat ≤ 0x65F) ||
  c.toNat = 0x670 ||
  (0x6D6 ≤ c.toNat && c.toNat ≤ 0x6DC) ||
  (0x6DF ≤ c.toNat && c.toNat ≤ 0x6E4) ||
  (0x6E7 ≤ c.toNat && c.toNat ≤ 0x6E8) ||
  (0x6EA ≤ c.toNat && c.toNat ≤ 0x6ED)

/-- The whitespace class matched by `\s` (and stripped by `str.strip`) in
Python for `str` patterns. -/
def isPySpace (c : Char) : Bool :=
  c = ' ' || c = '\t' || c = '\n' || c = '\r' ||
  c.toNat = 0xB || c.toNat = 0xC ||
  c.toNat = 0x1C || c.toNat = 0x1D || c.toNat = 0x1E || c.toNat = 0x1F ||
  c.toNat = 0x85 || c.toNat = 0xA0 || c.toNat = 0x1680 ||
  (0x2000 ≤ c.toNat && c.toNat ≤ 0x200A) ||
  c.toNat = 0x2028 || c.toNat = 0x2029 || c.toNat = 0x202F ||
  c.toNat = 0x205F || c.toNat = 0x3000

/-- The punctuation class of `_PUNCT_RE`: `[.,،؛;:؟?!"'«»\-_/\\]`. -/
def punctChars : Str :=
  ['.', ',', '،', '؛', ';', ':', '؟', '?', '!', '"', '\'', '«', '»',
   '-', '_', '/', '\\']

/-- Step 1 of `normalize`: `_TASHKEEL_RE.sub("", name)`. -/
def stripTashkeel (s : Str) : Str := s.filter (fun c => !isTashkeel c)

/-- Step 1 of `normalize` (second half): drop every character whose Unicode
category is Mn, `"".join(c for c in name if unicodedata.category(c) != "Mn")`;
the category test is the parameter `mn`. -/
def stripMn (mn : Char → Bool) (s : Str) : Str := s.filter (fun c => !mn c)

/-- The suffix after the first `')'`, if any: the continuation point of a
non-greedy `\(.*?\)` match that started just before `s`.  Python's `.`
(without `re.DOTALL`) matches every character except `'\n'`, so `.*?` cannot
consume a newline: if a `'\n'` occurs before the first `')'`, no match
starting at this `'('` exists and the result is `none`. -/
def afterClose : Str → Option Str
  | [] => none
  | c :: rest =>
    if c = ')' then some rest
    else if c = '\n' then none
    else afterClose rest

theorem afterClose_length : ∀ (s t : Str), afterClose s = some t → t.length < s.length := by
  intro s
  induction s with
  | nil => intro t h; simp [afterClose] at h
  | cons c rest ih =>
    intro t h
    simp only [afterClose] at h
    split at h
    · cases h; simp
    · split at h
      · cases h
      · have := ih t h; simp; omega

/-- Step 2 of `normalize`: `_PARENS_RE.sub("", name)` with the non-greedy
pattern `\(.*?\)` — each `'('` together with everything up to the next `')'`
on the same line is removed; since `.` does not match `'\n'`, a `'('` whose
first following `')'` lies beyond a newline (or does not exist) cannot start
a match: the engine emits it and resumes scanning at the next character, so a
later `'('` can still match.  The recursion jumps past each removed group, so
it is fuelled by the input length; `stripParensF_irrel` below shows any
sufficient fuel is equivalent. -/
def stripParensF : Nat → Str → Str
  | 0, s => s
  | _, [] => []
  | fuel + 1, c :: rest =>
    if c = '(' then
      match afterClose rest with
      | some rest2 => stripParensF fuel rest2
      | none => c :: stripParensF fuel rest
    else
      c :: stripParensF fuel rest

def stripParens (s : Str) : Str := stripParensF s.length s

theorem stripParensF_nil (f : Nat) : stripParensF f [] = [] := by
  cases f <;> rfl

theorem stripParensF_irrel : ∀ (f1 : Nat) (s : Str) (f2 : Nat), s.length ≤ f1 → s.length ≤ f2 →
    stripParensF f1 s = stripParensF f2 s := by
  intro f1
  induction f1 with
  | zero =>
    intro s f2 h1 _
    have : s = [] := by cases s <;> simp_all
    subst this
    rw [stripParensF_nil, stripParensF_nil]
  | succ g1 ih =>
    intro s f2 h1 h2
    match s with
    | [] => rw [stripParensF_nil, stripParensF_nil]
    | c :: rest =>
      match f2 with
      | 0 => simp at h2
      | g2 + 1 =>
        simp only [List.length_cons] at h1 h2
        simp only [stripParensF]
        split
        · cases hac : afterClose rest with
          | some r2 =>
            have hlt := afterClose_length rest r2 hac
            exact ih r2 g2 (by omega) (by omega)
          | none => rw [ih rest g2 (by omega) (by omega)]
        · rw [ih rest g2 (by omega) (by omega)]

theorem stripParens_cons (c : Char) (rest : Str) :
    stripParens (c :: rest) =
      if c = '(' then
        match afterClose rest with
        | some rest2 => stripParens rest2
        | none => c :: stripParens rest
      else
        c :: stripParens rest := by
  show stripParensF (rest.length + 1) (c :: rest) = _
  simp only [stripParensF]
  split
  · cases hac : afterClose rest with
    | some r2 =>
      have hlt := afterClose_length rest r2 hac
      exact stripParensF_irrel rest.length r2 r2.length (by omega) (by omega)
    | none => rfl
  · rfl

/-- Step 3 of `normalize`: `_PUNCT_RE.sub("", name)`. -/
def stripPunct (s : Str) : Str := s.filter (fun c => !punctChars.contains c)

/-- Steps 4–6 of `normalize`, the chain of `str.replace` calls
`أ→ا, إ→ا, آ→ا, ئ→ي, ؤ→و, ة→ه, ى→ي` — since the seven replaced characters
are pairwise distinct and no replacement target is replaced by a later call,
the sequential chain equals this single per-character map. -/
def unifyChar (c : Char) : Char :=
  if c = 'أ' then 'ا'
  else if c = 'إ' then 'ا'
  else if c = 'آ' then 'ا'
  else if c = 'ئ' then 'ي'
  else if c = 'ؤ' then 'و'
  else if c = 'ة' then 'ه'
  else if c = 'ى' then 'ي'
  else c

/-- Step 7 of `normalize`: `re.sub(r"^و\s*", "", name)` — one leading waw and
any whitespace after it are removed, only at the start of the string. -/
def stripLeadingWaw : Str → Str
  | [] => []
  | c :: rest => if c = 'و' then rest.dropWhile isPySpace else c :: rest

theorem dropWhile_length_le (p : Char → Bool) :
    ∀ l : Str, (l.dropWhile p).length ≤ l.length := by
  intro l
  induction l with
  | nil => simp [List.dropWhile]
  | cons c rest ih =>
    simp only [List.dropWhile]
    split
    · have := ih; simp only [List.length_cons]; omega
    · simp

/-- First half of step 8 of `normalize`: `re.sub(r"\s+", " ", name)` —
every maximal whitespace run becomes a single `' '`.  The Boolean flag says
whether the scanner is inside a whitespace run (whose first character already
emitted the `' '`). -/
def squeezeWsAux : Bool → Str → Str
  | _, [] => []
  | inRun, c :: rest =>
    if isPySpace c then
      if inRun then squeezeWsAux true rest
      else ' ' :: squeezeWsAux true rest
    else c :: squeezeWsAux false rest

def squeezeWs (s : Str) : Str := squeezeWsAux false s

/-- Right-hand part of Python `str.strip()`: drop trailing whitespace. -/
def rstripWs : Str → Str
  | [] => []
  | c :: rest =>
    match rstripWs rest with
    | [] => if isPySpace c then [] else [c]
    | r => c :: r

/-- Python `str.strip()`: drop leading and trailing whitespace. -/
def stripEnds (s : Str) : Str := rstripWs (s.dropWhile isPySpace)

/-- Step 8 of `normalize`: `re.sub(r"\s+", " ", name).strip()`. -/
def collapseWs (s : Str) : Str := stripEnds (squeezeWs s)

/-- `normalize` of `enrich_narrator_ids.py` / `resolve_remaining_narrators.py`
(the two copies are textually identical), with the Unicode Mn category test
abstracted as `mn`. -/
def normalize (mn : Char → Bool) (name : Str) : Str :=
  collapseWs (stripLeadingWaw
    (List.map unifyChar (stripPunct (stripParens (stripMn mn (stripTashkeel name))))))

/-- Concrete instantiation of the Mn category test used by closed statements:
the Arabic tashkeel marks together with the combining-diacritics block
U+0300–U+036F.  Every character appearing in a closed statement below is
classified by `mnModel` exactly as `unicodedata` classifies it. -/
def mnModel (c : Char) : Bool :=
  isTashkeel c || (0x300 ≤ c.toNat && c.toNat ≤ 0x36F)

example : normalize mnModel (str "وو") = str "و" := by decide
example : normalize mnModel (str "و") = str "" := by decide
example : normalize mnModel (str "أَبو (1) هريرة،") = str "ابو هريره" := by decide
example : normalize mnModel (str "(") = str "(" := by decide
example : normalize mnModel (str "عائشة بنت أبي بكر") = str "عايشه بنت ابي بكر" := by decide

/-! ## Registry builders -/

/-- Identities are the narrator id strings of the JSON sources. -/
abbrev Ident := Str

/-- Association-list lookup: the model of `dict` indexing / `in` tests.  All
builders below keep keys unique, so the first hit is the binding. -/
def alookup {α : Type} : List (Str × α) → Str → Option α
  | [], _ => none
  | (k, v) :: rest, k2 => if k = k2 then some v else alookup rest k2

/-- Model of Python `set.add`: sets are duplicate-free lists. -/
def setInsert (s : List Str) (x : Str) : List Str :=
  if x ∈ s then s else s ++ [x]

/-- Model of `raw.setdefault(norm, set()).add(nid)` on the accumulator
`norm → set of claiming ids`. -/
def addClaim : List (Str × List Ident) → Str → Ident → List (Str × List Ident)
  | [], norm, nid => [(norm, [nid])]
  | (k, ids) :: rest, norm, nid =>
    if k = norm then (k, setInsert ids nid) :: rest
    else (k, ids) :: addClaim rest norm nid

/-- Accumulation loop shared by `build_shamela_lookup` and
`build_narrator_name_lookup`: fold a list of (id, normalized form) claims
into the `norm → ids` map. -/
def accumClaims : List (Ident × Str) → List (Str × List Ident) → List (Str × List Ident)
  | [], raw => raw
  | (nid, norm) :: rest, raw => accumClaims rest (addClaim raw norm nid)

/-- The split `for norm, ids in raw.items(): if len(ids) == 1: lookup[norm] = …
else: collision_set.add(norm)` shared by both set-based builders. -/
def splitRaw : List (Str × List Ident) → List (Str × Ident) × List Str
  | [] => ([], [])
  | (norm, ids) :: rest =>
    let (lk, col) := splitRaw rest
    match ids with
    | [i] => ((norm, i) :: lk, col)
    | _ => (lk, norm :: col)

/-- One narrator entry of a Shamela hadith block: `{"id": …, "name": …}`.
`id` holds the stripped string form `str(narrator.get("id", "")).strip()`;
an absent id is the empty string. -/
structure ShamelaNarrator where
  id : Ident
  name : Str
deriving DecidableEq

/-- One `hadith_blocks` element of a Shamela JSONL object; absent `matn` /
`full_text` fields are the empty string. -/
structure HadithBlock where
  matn : Str
  full_text : Str
  narrators : List ShamelaNarrator
deriving DecidableEq

/-- One line of `shamela_book_1681.jsonl`; `status_success` is
`obj.get("status") == "success"`. -/
structure ShamelaObj where
  status_success : Bool
  hadith_blocks : List HadithBlock
  page_number : Nat
deriving DecidableEq

/-- The (id, name) pairs scanned by `build_shamela_lookup`: every narrator of
every block of every successful object, in file order. -/
def shamelaPairs (objs : List ShamelaObj) : List (Ident × Str) :=
  ((objs.filter (fun o => o.status_success)).map
    (fun o => (o.hadith_blocks.map
      (fun b => b.narrators.map (fun nr => (nr.id, nr.name)))).flatten)).flatten

/-- The surviving claims of `build_shamela_lookup`'s loop: the `continue`
guards `if not nid or not nname` and `if not norm` drop a pair. -/
def shamelaClaims (mn : Char → Bool) (objs : List ShamelaObj) : List (Ident × Str) :=
  (shamelaPairs objs).filterMap (fun p =>
    if p.1 = [] ∨ p.2 = [] then none
    else
      let norm := normalize mn p.2
      if norm = [] then none else some (p.1, norm))

/-- `build_shamela_lookup`: returns `(lookup, collision_set)`. -/
def build_shamela_lookup (mn : Char → Bool) (objs : List ShamelaObj) :
    List (Str × Ident) × List Str :=
  splitRaw (accumClaims (shamelaClaims mn objs) [])

/-- Accumulator of `normSetOf` below. -/
def normSetAux (mn : Char → Bool) : List Str → List Str → List Str
  | [], acc => acc
  | r :: rest, acc =>
    let norm := normalize mn r
    normSetAux mn rest (if norm = [] then acc else setInsert acc norm)

/-- The per-identity normalized variant set of `build_narrator_name_lookup`:
`norms = {normalize(raw) for raw in names if normalize(raw)}`. -/
def normSetOf (mn : Char → Bool) (names : List Str) : List Str :=
  normSetAux mn names []

/-- `id_to_norms`: identities whose variant set is empty are dropped
(`if norms: id_to_norms[narrator_id] = norms`). -/
def idToNorms (mn : Char → Bool) : List (Ident × List Str) → List (Ident × List Str)
  | [] => []
  | (nid, names) :: rest =>
    let norms := normSetOf mn names
    if norms = [] then idToNorms mn rest
    else (nid, norms) :: idToNorms mn rest

/-- The (id, norm) claims fed into `norm_to_ids` by the nested loop
`for narrator_id, norms in id_to_norms.items(): for norm in norms: …`. -/
def narratorClaims (itn : List (Ident × List Str)) : List (Ident × Str) :=
  (itn.map (fun p => p.2.map (fun norm => (p.1, norm)))).flatten

/-- Stable insertion into a list sorted by descending length: the model of
`sorted(…, key=len, reverse=True)` (ties keep accumulation order; the claims
below never depend on tie order). -/
def insertByLenDesc (x : Str) : List Str → List Str
  | [] => [x]
  | y :: ys => if y.length ≤ x.length then x :: y :: ys else y :: insertByLenDesc x ys

def sortByLenDesc (l : List Str) : List Str := l.foldr insertByLenDesc []

/-- `collision_index`: for every collided form, each claiming identity's full
variant list sorted longest-first. -/
def collIndex (col : List Str) (raw : List (Str × List Ident))
    (itn : List (Ident × List Str)) : List (Str × List (Ident × List Str)) :=
  col.map (fun norm =>
    (norm, ((alookup raw norm).getD []).map
      (fun nid => (nid, sortByLenDesc ((alookup itn nid).getD [])))))

/-- `build_narrator_name_lookup`: returns
`(lookup, collision_set, collision_index)`. -/
def build_narrator_name_lookup (mn : Char → Bool) (nn : List (Ident × List Str)) :
    List (Str × Ident) × List Str × List (Str × List (Ident × List Str)) :=
  let itn := idToNorms mn nn
  let raw := accumClaims (narratorClaims itn) []
  let (lk, col) := splitRaw raw
  (lk, col, collIndex col raw itn)

/-- The (id, raw name) pairs scanned by `build_lookup` of
`enrich_narrator_ids.py`. -/
def flattenNames (nn : List (Ident × List Str)) : List (Ident × Str) :=
  (nn.map (fun p => p.2.map (fun r => (p.1, r)))).flatten

/-- The loop body of `build_lookup` (enrich_narrator_ids.py): first claimant
wins the lookup slot; a later distinct claimant only adds the form to the
collision set, leaving the lookup entry in place. -/
def buildLookupAux (mn : Char → Bool) :
    List (Ident × Str) → List (Str × Ident) × List Str → List (Str × Ident) × List Str
  | [], acc => acc
  | (nid, raw) :: rest, (lk, col) =>
    let norm := normalize mn raw
    if norm = [] then buildLookupAux mn rest (lk, col)
    else
      match alookup lk norm with
      | some v =>
        buildLookupAux mn rest (lk, if v ≠ nid then setInsert col norm else col)
      | none => buildLookupAux mn rest (lk ++ [(norm, nid)], col)

/-- `build_lookup` of `enrich_narrator_ids.py`: returns
`(lookup, collision_set)`. -/
def build_lookup (mn : Char → Bool) (nn : List (Ident × List Str)) :
    List (Str × Ident) × List Str :=
  buildLookupAux mn (flattenNames nn) ([], [])

/-! ## The Shamela matn index (Pass 4's secondary index) -/

/-- Model of `dict` insertion: a repeated key overwrites in place. -/
def dictInsert (m : List (Str × Str)) (k v : Str) : List (Str × Str) :=
  match m with
  | [] => [(k, v)]
  | (k2, v2) :: rest =>
    if k2 = k then (k2, v) :: rest else (k2, v2) :: dictInsert rest k v

def dictOf (ps : List (Str × Str)) : List (Str × Str) :=
  ps.foldl (fun m kv => dictInsert m kv.1 kv.2) []

/-- One entry of the matn index: `narrator_ids = set(narrator_map)` (the
dict's key set, in first-occurrence order), the id→name map, and the page. -/
structure BlockEntry where
  narrator_ids : List Ident
  narrator_map : List (Str × Str)
  page : Nat
deriving DecidableEq

/-- `index.setdefault(key, []).append(entry)`. -/
def appendEntry (m : List (Str × List BlockEntry)) (k : Str) (e : BlockEntry) :
    List (Str × List BlockEntry) :=
  match m with
  | [] => [(k, [e])]
  | (k2, l) :: rest =>
    if k2 = k then (k2, l ++ [e]) :: rest else (k2, l) :: appendEntry rest k e

/-- The index entry built from one Shamela block. -/
def blockEntryOf (b : HadithBlock) (page : Nat) : BlockEntry :=
  let nmap := dictOf ((b.narrators.filter (fun nr => nr.id ≠ [])).map
    (fun nr => (nr.id, nr.name)))
  ⟨nmap.map Prod.fst, nmap, page⟩

/-- `build_shamela_matn_index`: key = first 100 characters of the normalized
`matn or full_text`; keys shorter than 15 characters are skipped. -/
def buildMatnIndex (mn : Char → Bool) (objs : List ShamelaObj) :
    List (Str × List BlockEntry) :=
  (objs.filter (fun o => o.status_success)).foldl
    (fun idx o =>
      o.hadith_blocks.foldl
        (fun idx b =>
          let text := if b.matn ≠ [] then b.matn else b.full_text
          let key := (normalize mn text).take 100
          if key.length < 15 then idx
          else appendEntry idx key (blockEntryOf b o.page_number))
        idx)
    []

/-! ## Canonical-name resolution (`lookup_canonical`) -/

/-- Python truthiness of an optional string: `None` and `""` are falsy. -/
def truthy : Option Str → Bool
  | none => false
  | some s => !s.isEmpty

/-- `s.startswith(pre)`. -/
def strStartsWith : Str → Str → Bool
  | _, [] => true
  | [], _ :: _ => false
  | c :: cs, d :: ds => c == d && strStartsWith cs ds

/-- `str.split()` with no argument: maximal non-whitespace runs, in order.
`cur` accumulates the current word reversed. -/
def wordsOfAux : Str → Str → List Str
  | cur, [] => if cur = [] then [] else [cur.reverse]
  | cur, c :: rest =>
    if isPySpace c then
      if cur = [] then wordsOfAux [] rest
      else cur.reverse :: wordsOfAux [] rest
    else wordsOfAux (c :: cur) rest

def wordsOf (s : Str) : List Str := wordsOfAux [] s

/-- `" ".join(parts)`. -/
def joinSpace : List Str → Str
  | [] => []
  | [w] => w
  | w :: ws => w ++ ' ' :: joinSpace ws

/-- The inner `_try` of `lookup_canonical`: each lookup is consulted only
when the form is not in that lookup's collision set. -/
def tryLookups (shL : List (Str × Ident)) (shC : List Str)
    (naL : List (Str × Ident)) (naC : List Str) (norm : Str) : Option Ident :=
  if (alookup shL norm).isSome ∧ norm ∉ shC then alookup shL norm
  else if (alookup naL norm).isSome ∧ norm ∉ naC then alookup naL norm
  else none

/-- Strategy A of `_try_disambiguate`: identities owning a variant other than
the prefix, longer than it, that the full name starts with. -/
def positiveIds (cands : List (Ident × List Str)) (pre full : Str) : List Ident :=
  (cands.filter (fun p => p.2.any (fun v =>
    (v != pre) && decide (pre.length < v.length) && strStartsWith full v))).map Prod.fst

/-- Strategy B of `_try_disambiguate`: identities owning no conflicting
variant (one starting with the prefix, longer, that the full name does not
start with). -/
def nonConflictingIds (cands : List (Ident × List Str)) (pre full : Str) : List Ident :=
  (cands.filter (fun p => !(p.2.any (fun v =>
    (v != pre) && decide (pre.length < v.length) && strStartsWith v pre &&
    !strStartsWith full v)))).map Prod.fst

/-- `_try_disambiguate(prefix, full_norm)`: strategy A, then strategy B, each
committing only on a unique survivor. -/
def tryDisambiguate (naIdx : Option (List (Str × List (Ident × List Str))))
    (pre full : Str) : Option Ident :=
  match naIdx with
  | none => none
  | some idx =>
    match alookup idx pre with
    | none => none
    | some cands =>
      let pos := positiveIds cands pre full
      if pos.length = 1 then pos.head?
      else
        let nc := nonConflictingIds cands pre full
        if nc.length = 1 then nc.head? else none

/-- The progressive-prefix loop of `lookup_canonical`:
`for end in range(len(parts) - 1, 0, -1)` — the argument is the current
`end`; `0` is loop exhaustion. -/
def canonLoop (shL : List (Str × Ident)) (shC : List Str)
    (naL : List (Str × Ident)) (naC : List Str)
    (naIdx : Option (List (Str × List (Ident × List Str))))
    (parts : List Str) (full : Str) : Nat → Option Ident
  | 0 => none
  | e + 1 =>
    let pre := joinSpace (parts.take (e + 1))
    let r := tryLookups shL shC naL naC pre
    if truthy r then r
    else if pre ∈ naC then
      let d := tryDisambiguate naIdx pre full
      if truthy d then d
      else canonLoop shL shC naL naC naIdx parts full e
    else canonLoop shL shC naL naC naIdx parts full e

/-- `lookup_canonical`: full normalized match first, then progressively
shorter word prefixes, disambiguating collided prefixes. -/
def lookupCanonical (mn : Char → Bool) (canonical : Str)
    (shL : List (Str × Ident)) (shC : List Str)
    (naL : List (Str × Ident)) (naC : List Str)
    (naIdx : Option (List (Str × List (Ident × List Str)))) : Option Ident :=
  let norm := normalize mn canonical
  let r := tryLookups shL shC naL naC norm
  if truthy r then r
  else
    let parts := wordsOf norm
    canonLoop shL shC naL naC naIdx parts norm (parts.length - 1)

/-! ## The resolution pipeline (`resolve`, Passes 0–3) -/

/-- One mention of a chain: `name` is immutable; `narrator_id`,
`narrator_id_resolution` and the `narrator_id_ambiguous` marker are the
mutable annotation fields. -/
structure Narrator where
  name : Str
  narrator_id : Option Ident
  narrator_id_resolution : Option String
  ambiguous : Bool
deriving DecidableEq

/-- The registries and curated tables `resolve` consults. -/
structure Tables where
  shL : List (Str × Ident)
  shC : List Str
  ctx : List (Str × Str)
  nmm : List (Str × Str)
  naL : List (Str × Ident)
  naC : List Str
  naIdx : Option (List (Str × List (Ident × List Str)))

/-- Pass 1 of `resolve`: the Shamela cross-reference.  The state is the
`(resolved_id, resolution_tag)` pair. -/
def pass1Sh (T : Tables) (norm : Str) : Option Ident × Option String :=
  if (alookup T.shL norm).isSome ∧ norm ∉ T.shC then
    (alookup T.shL norm, some "shamela_cross_ref")
  else (none, none)

/-- Pass 2 of `resolve`: the context mappings — guarded by
`resolved_id is None and student_name` (an empty student name skips it). -/
def pass2Ctx (mn : Char → Bool) (T : Tables) (raw student : Str)
    (st : Option Ident × Option String) : Option Ident × Option String :=
  if st.1 = none ∧ student ≠ [] then
    match alookup T.ctx (raw ++ '|' :: student) with
    | some canonical =>
      let r := lookupCanonical mn canonical T.shL T.shC T.naL T.naC T.naIdx
      (r, if truthy r then some "context_mapping" else st.2)
    | none => st
  else st

/-- Pass 3 of `resolve`: the name-mapping fallback. -/
def pass3Nm (mn : Char → Bool) (T : Tables) (raw : Str)
    (st : Option Ident × Option String) : Option Ident × Option String :=
  if st.1 = none then
    match alookup T.nmm raw with
    | some canonical =>
      let r := lookupCanonical mn canonical T.shL T.shC T.naL T.naC T.naIdx
      (r, if truthy r then some "name_mapping" else st.2)
    | none => st
  else st

/-- The apply step of `resolve`: a truthy resolved id commits both fields
and pops the ambiguous marker; otherwise both fields become null. -/
def applyResult (n : Narrator) (st : Option Ident × Option String) : Narrator :=
  if truthy st.1 then
    { n with narrator_id := st.1, narrator_id_resolution := st.2, ambiguous := false }
  else
    { n with narrator_id := none, narrator_id_resolution := none }

/-- The per-mention body of `resolve`'s loop: Pass 0 (carry-forward), then
Passes 1–3 in order, then the apply step. -/
def resolveStep (mn : Char → Bool) (T : Tables) (student : Str) (n : Narrator) : Narrator :=
  if n.narrator_id.isSome then
    { n with narrator_id_resolution := some "exact_match" }
  else
    applyResult n
      (pass3Nm mn T n.name
        (pass2Ctx mn T n.name student
          (pass1Sh T (normalize mn n.name))))

/-- The chain loop of `resolve`: the student of the mention at `idx` is the
mention at `idx - 1` of the same chain (names are never mutated, so reading
them from the original chain matches the in-place Python loop). -/
def resolveChainAux (mn : Char → Bool) (T : Tables) (orig : List Narrator) :
    Nat → List Narrator → List Narrator
  | _, [] => []
  | idx, n :: rest =>
    let student : Str :=
      if idx > 0 then ((orig[idx - 1]?).map (fun m => m.name)).getD [] else []
    resolveStep mn T student n :: resolveChainAux mn T orig (idx + 1) rest

def resolveChain (mn : Char → Bool) (T : Tables) (c : List Narrator) : List Narrator :=
  resolveChainAux mn T c 0 c

/-- One record of the Bukhari corpus. -/
structure Hadith where
  chains : List (List Narrator)
  matn_segments : List Str
deriving DecidableEq

/-- Passes 0–3 over one hadith. -/
def resolveHadith (mn : Char → Bool) (T : Tables) (h : Hadith) : Hadith :=
  { h with chains := h.chains.map (resolveChain mn T) }

/-- `resolve`: Passes 0–3 over the whole corpus (the returned statistics and
still-null name set of the Python function are reporting only and are not
modelled). -/
def resolveHadiths (mn : Char → Bool) (T : Tables) (hs : List Hadith) : List Hadith :=
  hs.map (resolveHadith mn T)

/-! ## Pass 4 (`resolve_pass4_matn`) -/

/-- Number of null narrator slots of a hadith, across all chains in order. -/
def countNulls (h : Hadith) : Nat :=
  (h.chains.map (fun c => (c.filter (fun n => n.narrator_id = none)).length)).sum

/-- Ids already resolved in this hadith (used only for membership tests, so
duplicates are harmless). -/
def resolvedIds (h : Hadith) : List Ident :=
  (h.chains.map (fun c => c.filterMap (fun n => n.narrator_id))).flatten

/-- Lexicographic code-point order on strings: Python `<` on `str`. -/
def strLt : Str → Str → Bool
  | [], [] => false
  | [], _ :: _ => true
  | _ :: _, [] => false
  | a :: as, b :: bs => decide (a < b) || (a == b && strLt as bs)

def insertAsc (x : Str) : List Str → List Str
  | [] => [x]
  | y :: ys => if strLt x y then x :: y :: ys else y :: insertAsc x ys

/-- `sorted(extra_ids)`: ascending lexicographic sort (the extra ids are
pairwise distinct, for which insertion sort agrees with Python's sort). -/
def sortStrs (l : List Str) : List Str := l.foldr insertAsc []

/-- `zip(null_slots, sorted(extra_ids))` materialised over one chain: each
null slot consumes the next id; `rem` is handed to the following chain. -/
def assignChain : List Ident → List Narrator → List Narrator × List Ident
  | ids, [] => ([], ids)
  | ids, n :: rest =>
    if n.narrator_id = none then
      match ids with
      | [] =>
        let (r, rem) := assignChain [] rest
        (n :: r, rem)
      | i :: ids2 =>
        let (r, rem) := assignChain ids2 rest
        ({ n with narrator_id := some i,
                  narrator_id_resolution := some "matn_chain_match",
                  ambiguous := false } :: r, rem)
    else
      let (r, rem) := assignChain ids rest
      (n :: r, rem)

def assignChains : List Ident → List (List Narrator) → List (List Narrator) × List Ident
  | ids, [] => ([], ids)
  | ids, c :: cs =>
    let (c2, rem) := assignChain ids c
    let (cs2, rem2) := assignChains rem cs
    (c2 :: cs2, rem2)

/-- `resolve_pass4_matn` for a single hadith: commit only when exactly one
Shamela block matches the matn fingerprint and the extra-id count equals the
null-slot count. -/
def pass4One (mn : Char → Bool) (idx : List (Str × List BlockEntry)) (h : Hadith) : Hadith :=
  if countNulls h = 0 then h
  else
    match h.matn_segments with
    | [] => h
    | m0 :: _ =>
      match (alookup idx ((normalize mn m0).take 100)).getD [] with
      | [b] =>
        let extra := b.narrator_ids.filter (fun i => i ∉ resolvedIds h)
        if extra.length = countNulls h then
          { h with chains := (assignChains (sortStrs extra) h.chains).1 }
        else h
      | _ => h

/-- `resolve_pass4_matn` (its returned count and still-null set are
reporting only and are not modelled). -/
def resolvePass4 (mn : Char → Bool) (idx : List (Str × List BlockEntry))
    (hs : List Hadith) : List Hadith :=
  hs.map (pass4One mn idx)

/-! ## Concrete fixtures for closed statements -/

/-- Scenario-B identity source: `"10"` and `"11"` share the short form, and
each owns one distinguishing longer form. -/
def nnB : List (Ident × List Str) :=
  [(str "10", [str "عايشه بنت", str "عايشه بنت ابي بكر"]),
   (str "11", [str "عايشه بنت", str "عايشه بنت سعد"])]

def bnlB : List (Str × Ident) × List Str × List (Str × List (Ident × List Str)) :=
  build_narrator_name_lookup mnModel nnB

example :
    lookupCanonical mnModel (str "عائشة بنت أبي بكر") [] [] bnlB.1 bnlB.2.1
      (some bnlB.2.2) = some (str "10") := by decide
example : str "عايشه بنت" ∈ bnlB.2.1 := by decide
example :
    positiveIds ((alookup bnlB.2.2 (str "عايشه بنت")).getD [])
      (str "عايشه بنت") (normalize mnModel (str "عائشة بنت أبي بكر")) = [str "10"] := by decide

/-- A Shamela object whose single block carries the chain `["9", "2"]` (in
chain order) and a 20-character matn. -/
def objP4 : ShamelaObj :=
  ⟨true, [⟨str "مممممممممممممممممممم", [], [⟨str "9", str "س"⟩, ⟨str "2", str "ص"⟩]⟩], 5⟩

def idxP4 : List (Str × List BlockEntry) := buildMatnIndex mnModel [objP4]

/-- A record with two unresolved mentions and the same matn. -/
def hP4 : Hadith :=
  ⟨[[⟨str "ا", none, none, false⟩, ⟨str "ب", none, none, false⟩]],
   [str "مممممممممممممممممممم"]⟩

example :
    resolvePass4 mnModel idxP4 [hP4] =
      [⟨[[⟨str "ا", some (str "2"), some "matn_chain_match", false⟩,
          ⟨str "ب", some (str "9"), some "matn_chain_match", false⟩]],
        [str "مممممممممممممممممممم"]⟩] := by decide

example : (idxP4.map (fun p => p.2.map (fun b => b.narrator_ids))) =
    [[[str "9", str "2"]]] := by decide

/-- Identity source on which two distinct identities claim one form. -/
def nnColl : List (Ident × List Str) := [(str "1", [str "ب"]), (str "2", [str "ب"])]

/-- Tables for the first-mention Pass-2 scenario: empty Shamela lookup, a
context rule keyed with an empty student name, and a narrator lookup that
resolves its canonical name. -/
def tablesFM : Tables :=
  ⟨[], [], [(str "ب|", str "ج")], [], [(str "ج", str "7")], [], none⟩

/-- An unresolved first mention named `"ب"`. -/
def nFM : Narrator := ⟨str "ب", none, none, false⟩

/-- Tables whose Shamela lookup resolves the name `"ا"`. -/
def tablesSh : Tables :=
  ⟨[(str "ا", str "5")], [], [], [], [], [], none⟩

/-- A Shamela object with two distinct successful blocks sharing one matn
fingerprint: its index entry has two blocks. -/
def objDup : ShamelaObj :=
  ⟨true,
   [⟨str "مممممممممممممممممممم", [], [⟨str "9", str "س"⟩]⟩,
    ⟨str "مممممممممممممممممممم", [], [⟨str "2", str "ص"⟩]⟩], 7⟩

def idxDup : List (Str × List BlockEntry) := buildMatnIndex mnModel [objDup]

/-- A record with one unresolved mention and the duplicated matn. -/
def hDup : Hadith :=
  ⟨[[⟨str "ا", none, none, false⟩]], [str "مممممممممممممممممممم"]⟩

/-- Empty registries and tables. -/
def tablesEmpty : Tables := ⟨[], [], [], [], [], [], none⟩

/-! ## Helper lemmas on the pipeline -/

theorem pass2Ctx_empty_student (mn : Char → Bool) (T : Tables) (raw : Str)
    (st : Option Ident × Option String) : pass2Ctx mn T raw [] st = st := by
  simp [pass2Ctx]

theorem pass1Sh_snd (T : Tables) (norm : Str) :
    (pass1Sh T norm).2 = some "shamela_cross_ref" ∨ (pass1Sh T norm).2 = none := by
  unfold pass1Sh
  split <;> simp

theorem pass3Nm_snd (mn : Char → Bool) (T : Tables) (raw : Str)
    (st : Option Ident × Option String) :
    (pass3Nm mn T raw st).2 = some "name_mapping" ∨ (pass3Nm mn T raw st).2 = st.2 := by
  unfold pass3Nm
  split
  · split
    · dsimp only
      split <;> simp
    · simp
  · simp

theorem truthy_isSome (o : Option Str) : truthy o = true → o.isSome = true := by
  cases o <;> simp [truthy]

theorem pass1Sh_paired (T : Tables) (norm : Str) :
    truthy (pass1Sh T norm).1 = true → ((pass1Sh T norm).2).isSome = true := by
  unfold pass1Sh
  split <;> simp [truthy]

theorem pass2Ctx_paired (mn : Char → Bool) (T : Tables) (raw student : Str)
    (st : Option Ident × Option String)
    (ih : truthy st.1 = true → (st.2).isSome = true) :
    truthy (pass2Ctx mn T raw student st).1 = true →
      ((pass2Ctx mn T raw student st).2).isSome = true := by
  unfold pass2Ctx
  split
  · split
    · dsimp only
      intro ht
      simp [ht]
    · exact ih
  · exact ih

theorem pass3Nm_paired (mn : Char → Bool) (T : Tables) (raw : Str)
    (st : Option Ident × Option String)
    (ih : truthy st.1 = true → (st.2).isSome = true) :
    truthy (pass3Nm mn T raw st).1 = true →
      ((pass3Nm mn T raw st).2).isSome = true := by
  unfold pass3Nm
  split
  · split
    · dsimp only
      intro ht
      simp [ht]
    · exact ih
  · exact ih

theorem resolveStep_paired (mn : Char → Bool) (T : Tables) (student : Str) (n : Narrator) :
    (resolveStep mn T student n).narrator_id.isSome =
      (resolveStep mn T student n).narrator_id_resolution.isSome := by
  unfold resolveStep
  split
  · next h => simp [h]
  · unfold applyResult
    split
    · next ht =>
      have hp := pass3Nm_paired mn T n.name _
        (pass2Ctx_paired mn T n.name student _ (pass1Sh_paired T (normalize mn n.name))) ht
      dsimp only
      rw [truthy_isSome _ ht, hp]
    · simp

theorem resolveChainAux_mem (mn : Char → Bool) (T : Tables) (orig : List Narrator) :
    ∀ (idx : Nat) (c : List Narrator) (n2 : Narrator),
      n2 ∈ resolveChainAux mn T orig idx c → ∃ s n, n2 = resolveStep mn T s n := by
  intro idx c
  induction c generalizing idx with
  | nil => intro n2 h; simp [resolveChainAux] at h
  | cons n rest ih =>
    intro n2 h
    simp only [resolveChainAux, List.mem_cons] at h
    rcases h with h | h
    · exact ⟨_, n, h⟩
    · exact ih (idx + 1) n2 h

theorem assignChain_nil (ids : List Ident) : assignChain ids [] = ([], ids) := rfl

theorem assignChain_cons_null_nil (n : Narrator) (rest : List Narrator)
    (h : n.narrator_id = none) :
    assignChain [] (n :: rest) =
      (n :: (assignChain [] rest).1, (assignChain [] rest).2) := by
  cases hrec : assignChain [] rest with
  | mk r rem => simp [assignChain, h, hrec]

theorem assignChain_cons_null_cons (n : Narrator) (rest : List Narrator) (i : Ident)
    (ids2 : List Ident) (h : n.narrator_id = none) :
    assignChain (i :: ids2) (n :: rest) =
      ({ n with narrator_id := some i,
                narrator_id_resolution := some "matn_chain_match",
                ambiguous := false } :: (assignChain ids2 rest).1,
       (assignChain ids2 rest).2) := by
  cases hrec : assignChain ids2 rest with
  | mk r rem => simp [assignChain, h, hrec]

theorem assignChain_cons_some (n : Narrator) (rest : List Narrator) (ids : List Ident)
    (h : ¬n.narrator_id = none) :
    assignChain ids (n :: rest) =
      (n :: (assignChain ids rest).1, (assignChain ids rest).2) := by
  cases hrec : assignChain ids rest with
  | mk r rem => simp [assignChain, h, hrec]

theorem assignChains_nil (ids : List Ident) : assignChains ids [] = ([], ids) := rfl

theorem assignChains_cons (ids : List Ident) (c : List Narrator) (cs : List (List Narrator)) :
    assignChains ids (c :: cs) =
      ((assignChain ids c).1 :: (assignChains (assignChain ids c).2 cs).1,
       (assignChains (assignChain ids c).2 cs).2) := by
  cases hrec : assignChain ids c with
  | mk r rem =>
    cases hrec2 : assignChains rem cs with
    | mk rs rem2 => simp [assignChains, hrec, hrec2]

theorem assignChain_mem : ∀ (c : List Narrator) (ids : List Ident),
    (∀ m ∈ c, m.narrator_id.isSome = m.narrator_id_resolution.isSome) →
    ∀ n2 ∈ (assignChain ids c).1,
      n2.narrator_id.isSome = n2.narrator_id_resolution.isSome := by
  intro c
  induction c with
  | nil => intro ids hp n2 h; rw [assignChain_nil] at h; simp at h
  | cons n rest ih =>
    intro ids hp n2 h
    by_cases hn : n.narrator_id = none
    · cases ids with
      | nil =>
        rw [assignChain_cons_null_nil n rest hn] at h
        rcases List.mem_cons.mp h with h | h
        · subst h; exact hp _ (List.mem_cons_self _ _)
        · exact ih [] (fun m hm => hp m (List.mem_cons_of_mem n hm)) n2 h
      | cons i ids2 =>
        rw [assignChain_cons_null_cons n rest i ids2 hn] at h
        rcases List.mem_cons.mp h with h | h
        · subst h; rfl
        · exact ih ids2 (fun m hm => hp m (List.mem_cons_of_mem n hm)) n2 h
    · rw [assignChain_cons_some n rest ids hn] at h
      rcases List.mem_cons.mp h with h | h
      · subst h; exact hp _ (List.mem_cons_self _ _)
      · exact ih ids (fun m hm => hp m (List.mem_cons_of_mem n hm)) n2 h

theorem assignChains_mem : ∀ (cs : List (List Narrator)) (ids : List Ident),
    (∀ c ∈ cs, ∀ m ∈ c, m.narrator_id.isSome = m.narrator_id_resolution.isSome) →
    ∀ c2 ∈ (assignChains ids cs).1, ∀ n2 ∈ c2,
      n2.narrator_id.isSome = n2.narrator_id_resolution.isSome := by
  intro cs
  induction cs with
  | nil => intro ids hp c2 h; rw [assignChains_nil] at h; simp at h
  | cons c cs2 ih =>
    intro ids hp c2 h n2 hn2
    rw [assignChains_cons] at h
    rcases List.mem_cons.mp h with h | h
    · subst h
      exact assignChain_mem c ids (fun m hm => hp c (List.mem_cons_self c cs2) m hm) n2 hn2
    · exact ih _ (fun d hd => hp d (List.mem_cons_of_mem c hd)) c2 h n2 hn2

theorem assignChain_forall2 : ∀ (c : List Narrator) (ids : List Ident),
    List.Forall₂ (fun a b => a.narrator_id.isSome = true → b = a) c (assignChain ids c).1 := by
  intro c
  induction c with
  | nil => intro ids; rw [assignChain_nil]; exact List.Forall₂.nil
  | cons n rest ih =>
    intro ids
    by_cases hn : n.narrator_id = none
    · cases ids with
      | nil =>
        rw [assignChain_cons_null_nil n rest hn]
        exact List.Forall₂.cons (fun _ => rfl) (ih [])
      | cons i ids2 =>
        rw [assignChain_cons_null_cons n rest i ids2 hn]
        refine List.Forall₂.cons (fun hs => ?_) (ih ids2)
        rw [hn] at hs
        simp at hs
    · rw [assignChain_cons_some n rest ids hn]
      exact List.Forall₂.cons (fun _ => rfl) (ih ids)

theorem assignChains_forall2 : ∀ (cs : List (List Narrator)) (ids : List Ident),
    List.Forall₂ (List.Forall₂ (fun a b => a.narrator_id.isSome = true → b = a))
      cs (assignChains ids cs).1 := by
  intro cs
  induction cs with
  | nil => intro ids; rw [assignChains_nil]; exact List.Forall₂.nil
  | cons c cs2 ih =>
    intro ids
    rw [assignChains_cons]
    exact List.Forall₂.cons (assignChain_forall2 c ids) (ih _)

theorem forall2_chains_refl (cs : List (List Narrator)) :
    List.Forall₂ (List.Forall₂ (fun a b => a.narrator_id.isSome = true → b = a)) cs cs := by
  refine List.forall₂_same.mpr (fun c _ => ?_)
  exact List.forall₂_same.mpr (fun m _ _ => rfl)

theorem pass4One_forall2 (mn : Char → Bool) (idx : List (Str × List BlockEntry)) (h : Hadith) :
    List.Forall₂ (List.Forall₂ (fun a b => a.narrator_id.isSome = true → b = a))
      h.chains (pass4One mn idx h).chains := by
  unfold pass4One
  split
  · exact forall2_chains_refl _
  · split
    · exact forall2_chains_refl _
    · split
      · dsimp only
        split
        · exact assignChains_forall2 h.chains _
        · exact forall2_chains_refl _
      · exact forall2_chains_refl _

theorem pass4One_paired (mn : Char → Bool) (idx : List (Str × List BlockEntry)) (h : Hadith)
    (hp : ∀ c ∈ h.chains, ∀ n ∈ c, n.narrator_id.isSome = n.narrator_id_resolution.isSome) :
    ∀ c ∈ (pass4One mn idx h).chains, ∀ n ∈ c,
      n.narrator_id.isSome = n.narrator_id_resolution.isSome := by
  unfold pass4One
  split
  · exact hp
  · split
    · exact hp
    · split
      · dsimp only
        split
        · exact assignChains_mem h.chains _ hp
        · exact hp
      · exact hp

/-! ## Helper lemmas on the normalizer -/

theorem afterClose_mem : ∀ (s t : Str), afterClose s = some t → ')' ∈ s := by
  intro s
  induction s with
  | nil => intro t h; simp [afterClose] at h
  | cons c rest ih =>
    intro t h
    simp only [afterClose] at h
    split at h
    · next he => rw [he]; exact List.mem_cons_self _ _
    · split at h
      · cases h
      · exact List.mem_cons_of_mem _ (ih t h)

theorem afterClose_sublist : ∀ (s t : Str), afterClose s = some t → List.Sublist t s := by
  intro s
  induction s with
  | nil => intro t h; simp [afterClose] at h
  | cons c rest ih =>
    intro t h
    simp only [afterClose] at h
    split at h
    · cases h; exact (List.sublist_cons_self c rest)
    · split at h
      · cases h
      · exact (ih t h).cons c

theorem stripParensF_sublist : ∀ (f : Nat) (s : Str), s.length ≤ f → List.Sublist (stripParensF f s) s := by
  intro f
  induction f with
  | zero =>
    intro s h
    have : s = [] := by cases s <;> simp_all
    subst this
    simp [stripParensF]
  | succ g ih =>
    intro s h
    cases s with
    | nil => rw [stripParensF_nil]
    | cons c rest =>
      simp only [List.length_cons] at h
      simp only [stripParensF]
      split
      · cases hac : afterClose rest with
        | some r2 =>
          have hlt := afterClose_length rest r2 hac
          have h1 : List.Sublist (stripParensF g r2) r2 := ih r2 (by omega)
          exact (h1.trans (afterClose_sublist rest r2 hac)).cons c
        | none => exact (ih rest (by omega)).cons₂ c
      · exact (ih rest (by omega)).cons₂ c

theorem stripParens_sublist (s : Str) : List.Sublist (stripParens s) s :=
  stripParensF_sublist s.length s (Nat.le_refl _)

theorem stripParensF_fix : ∀ (f : Nat) (s : Str), s.length ≤ f →
    ¬List.Sublist ['(', ')'] s → stripParensF f s = s := by
  intro f
  induction f with
  | zero =>
    intro s h _
    have : s = [] := by cases s <;> simp_all
    subst this
    rw [stripParensF_nil]
  | succ g ih =>
    intro s h hnp
    cases s with
    | nil => rw [stripParensF_nil]
    | cons c rest =>
      simp only [List.length_cons] at h
      simp only [stripParensF]
      split
      · next hc =>
        subst hc
        cases hac : afterClose rest with
        | some r2 =>
          exfalso
          apply hnp
          exact List.Sublist.cons₂ _ (List.singleton_sublist.mpr (afterClose_mem rest r2 hac))
        | none =>
          have hnp2 : ¬List.Sublist ['(', ')'] rest := fun h2 => hnp (h2.cons _)
          rw [ih rest (by omega) hnp2]
      · next hc =>
        have hnp2 : ¬List.Sublist ['(', ')'] rest := fun h2 => hnp (h2.cons c)
        rw [ih rest (by omega) hnp2]

theorem stripParens_fix (s : Str) (h : ¬List.Sublist ['(', ')'] s) : stripParens s = s :=
  stripParensF_fix s.length s (Nat.le_refl _) h

/-- Verification predicate: no two adjacent whitespace characters. -/
def sqzd : Str → Bool
  | [] => true
  | [_] => true
  | a :: b :: t => (!(isPySpace a && isPySpace b)) && sqzd (b :: t)

theorem sqzd_tail (a : Char) (t : Str) (h : sqzd (a :: t) = true) : sqzd t = true := by
  cases t with
  | nil => rfl
  | cons b t2 =>
    simp only [sqzd, Bool.and_eq_true] at h
    exact h.2

theorem sqzd_cons_of_head (a : Char) (t : Str) (h1 : sqzd t = true)
    (h2 : ∀ d, t.head? = some d → isPySpace d = false) : sqzd (a :: t) = true := by
  cases t with
  | nil => rfl
  | cons d t2 =>
    have hd := h2 d rfl
    simp [sqzd, hd, h1]

theorem sqzd_cons_of_nonspace (a : Char) (t : Str) (ha : isPySpace a = false)
    (h : sqzd t = true) : sqzd (a :: t) = true := by
  cases t with
  | nil => rfl
  | cons d t2 => simp [sqzd, ha, h]

theorem sqzd_append_left : ∀ (l1 l2 : Str), sqzd (l1 ++ l2) = true → sqzd l1 = true := by
  intro l1
  induction l1 with
  | nil => intro l2 _; rfl
  | cons a t ih =>
    intro l2 h
    cases t with
    | nil => rfl
    | cons b t2 =>
      simp only [List.cons_append, sqzd, Bool.and_eq_true] at h ⊢
      exact ⟨h.1, ih l2 h.2⟩

theorem sqzd_append_right : ∀ (l1 l2 : Str), sqzd (l1 ++ l2) = true → sqzd l2 = true := by
  intro l1
  induction l1 with
  | nil => intro l2 h; exact h
  | cons a t ih =>
    intro l2 h
    exact ih l2 (sqzd_tail a (t ++ l2) h)

theorem squeezeAux_chars : ∀ (s : Str) (fl : Bool) (c : Char),
    c ∈ squeezeWsAux fl s → c = ' ' ∨ (c ∈ s ∧ isPySpace c = false) := by
  intro s
  induction s with
  | nil => intro fl c h; simp [squeezeWsAux] at h
  | cons a rest ih =>
    intro fl c h
    simp only [squeezeWsAux] at h
    split at h
    · split at h
      · rcases ih true c h with h2 | h2
        · exact Or.inl h2
        · exact Or.inr ⟨List.mem_cons_of_mem _ h2.1, h2.2⟩
      · rcases List.mem_cons.mp h with he | h2
        · exact Or.inl he
        · rcases ih true c h2 with h3 | h3
          · exact Or.inl h3
          · exact Or.inr ⟨List.mem_cons_of_mem _ h3.1, h3.2⟩
    · next ha =>
      rcases List.mem_cons.mp h with he | h2
      · subst he
        exact Or.inr ⟨List.mem_cons_self _ _, by simpa using ha⟩
      · rcases ih false c h2 with h3 | h3
        · exact Or.inl h3
        · exact Or.inr ⟨List.mem_cons_of_mem _ h3.1, h3.2⟩

theorem squeezeAux_nil (fl : Bool) : squeezeWsAux fl [] = [] := rfl

theorem squeezeAux_cons_space_true (a : Char) (rest : Str) (h : isPySpace a = true) :
    squeezeWsAux true (a :: rest) = squeezeWsAux true rest := by
  simp [squeezeWsAux, h]

theorem squeezeAux_cons_space_false (a : Char) (rest : Str) (h : isPySpace a = true) :
    squeezeWsAux false (a :: rest) = ' ' :: squeezeWsAux true rest := by
  simp [squeezeWsAux, h]

theorem squeezeAux_cons_nonspace (fl : Bool) (a : Char) (rest : Str)
    (h : isPySpace a = false) :
    squeezeWsAux fl (a :: rest) = a :: squeezeWsAux false rest := by
  simp [squeezeWsAux, h]

theorem squeezeAux_sqzd : ∀ (s : Str),
    sqzd (squeezeWsAux true s) = true ∧ sqzd (squeezeWsAux false s) = true ∧
    (∀ c, (squeezeWsAux true s).head? = some c → isPySpace c = false) := by
  intro s
  induction s with
  | nil => exact ⟨rfl, rfl, fun c h => by simp [squeezeWsAux] at h⟩
  | cons a rest ih =>
    by_cases ha : isPySpace a = true
    · refine ⟨?_, ?_, ?_⟩
      · rw [squeezeAux_cons_space_true a rest ha]
        exact ih.1
      · rw [squeezeAux_cons_space_false a rest ha]
        exact sqzd_cons_of_head ' ' _ ih.1 ih.2.2
      · intro c h
        rw [squeezeAux_cons_space_true a rest ha] at h
        exact ih.2.2 c h
    · have ha2 : isPySpace a = false := by simpa using ha
      refine ⟨?_, ?_, ?_⟩
      · rw [squeezeAux_cons_nonspace true a rest ha2]
        exact sqzd_cons_of_nonspace a _ ha2 ih.2.1
      · rw [squeezeAux_cons_nonspace false a rest ha2]
        exact sqzd_cons_of_nonspace a _ ha2 ih.2.1
      · intro c h
        rw [squeezeAux_cons_nonspace true a rest ha2, List.head?_cons] at h
        cases h
        exact ha2

theorem squeezeAux_fix : ∀ (s : Str),
    ((∀ c ∈ s, isPySpace c = true → c = ' ') → sqzd s = true →
      squeezeWsAux false s = s) ∧
    ((∀ c, s.head? = some c → isPySpace c = false) →
      (∀ c ∈ s, isPySpace c = true → c = ' ') → sqzd s = true →
      squeezeWsAux true s = s) := by
  intro s
  induction s with
  | nil => exact ⟨fun _ _ => rfl, fun _ _ _ => rfl⟩
  | cons a rest ih =>
    constructor
    · intro hsb hsq
      by_cases ha : isPySpace a = true
      · have haa : a = ' ' := hsb a (List.mem_cons_self _ _) ha
        rw [squeezeAux_cons_space_false a rest ha]
        have hrest : squeezeWsAux true rest = rest := by
          refine ih.2 ?_ (fun c hc h2 => hsb c (List.mem_cons_of_mem _ hc) h2)
            (sqzd_tail a rest hsq)
          intro c hc
          cases rest with
          | nil => simp at hc
          | cons d t =>
            cases hc
            simp only [sqzd, Bool.and_eq_true, Bool.not_eq_true', Bool.and_eq_false_iff] at hsq
            rcases hsq.1 with h3 | h3
            · rw [ha] at h3; cases h3
            · exact h3
        rw [hrest, haa]
      · have ha2 : isPySpace a = false := by simpa using ha
        rw [squeezeAux_cons_nonspace false a rest ha2]
        rw [ih.1 (fun c hc h2 => hsb c (List.mem_cons_of_mem _ hc) h2) (sqzd_tail a rest hsq)]
    · intro hh hsb hsq
      have ha2 : isPySpace a = false := hh a rfl
      rw [squeezeAux_cons_nonspace true a rest ha2]
      rw [ih.1 (fun c hc h2 => hsb c (List.mem_cons_of_mem _ hc) h2) (sqzd_tail a rest hsq)]

theorem rstripWs_cons (c : Char) (rest : Str) :
    rstripWs (c :: rest) =
      match rstripWs rest with
      | [] => if isPySpace c then [] else [c]
      | r => c :: r := rfl

theorem rstripWs_exists_append : ∀ (s : Str), ∃ t, s = rstripWs s ++ t := by
  intro s
  induction s with
  | nil => exact ⟨[], rfl⟩
  | cons c rest ih =>
    rcases ih with ⟨t, ht⟩
    cases hr : rstripWs rest with
    | nil =>
      rw [rstripWs_cons, hr]
      by_cases hc : isPySpace c = true
      · rw [if_pos hc]
        exact ⟨c :: rest, by simp⟩
      · rw [if_neg hc]
        refine ⟨t, ?_⟩
        rw [hr] at ht
        simp [ht]
    | cons d r2 =>
      rw [rstripWs_cons, hr]
      refine ⟨t, ?_⟩
      rw [hr] at ht
      dsimp only
      rw [List.cons_append, ← ht]

theorem rstripWs_head : ∀ (s : Str) (c : Char),
    (rstripWs s).head? = some c → s.head? = some c := by
  intro s c h
  cases s with
  | nil => simp [rstripWs] at h
  | cons a rest =>
    rw [rstripWs_cons] at h
    cases hr : rstripWs rest with
    | nil =>
      rw [hr] at h
      by_cases hc : isPySpace a = true
      · rw [if_pos hc] at h
        simp at h
      · rw [if_neg hc] at h
        simp at h
        simp [h]
    | cons d r2 =>
      rw [hr] at h
      dsimp only at h
      simp at h
      simp [h]

theorem rstripWs_last : ∀ (s : Str) (c : Char),
    (rstripWs s).getLast? = some c → isPySpace c = false := by
  intro s
  induction s with
  | nil => intro c h; simp [rstripWs] at h
  | cons a rest ih =>
    intro c h
    rw [rstripWs_cons] at h
    cases hr : rstripWs rest with
    | nil =>
      rw [hr] at h
      by_cases hc : isPySpace a = true
      · rw [if_pos hc] at h
        simp at h
      · rw [if_neg hc] at h
        simp only [List.getLast?_singleton, Option.some.injEq] at h
        subst h
        simpa using hc
    | cons d r2 =>
      rw [hr] at h
      dsimp only at h
      rw [List.getLast?_cons_cons] at h
      rw [← hr] at h
      exact ih c h

theorem rstripWs_fix : ∀ (s : Str),
    (∀ c, s.getLast? = some c → isPySpace c = false) → rstripWs s = s := by
  intro s
  induction s with
  | nil => intro _; rfl
  | cons a rest ih =>
    intro hl
    cases rest with
    | nil =>
      have ha := hl a (by simp)
      rw [rstripWs_cons]
      simp [rstripWs, ha]
    | cons b t =>
      have hrest : rstripWs (b :: t) = b :: t := by
        refine ih ?_
        intro c hc
        refine hl c ?_
        rw [List.getLast?_cons_cons]
        exact hc
      rw [rstripWs_cons, hrest]

theorem dropWhile_head (p : Char → Bool) : ∀ (l : Str) (c : Char),
    (l.dropWhile p).head? = some c → p c = false := by
  intro l
  induction l with
  | nil => intro c h; simp [List.dropWhile] at h
  | cons a rest ih =>
    intro c h
    simp only [List.dropWhile] at h
    split at h
    · exact ih c h
    · next ha =>
      simp only [List.head?_cons, Option.some.injEq] at h
      subst h
      simpa using ha

theorem dropWhile_exists_append (p : Char → Bool) : ∀ (l : Str),
    ∃ t, l = t ++ l.dropWhile p := by
  intro l
  induction l with
  | nil => exact ⟨[], rfl⟩
  | cons a rest ih =>
    simp only [List.dropWhile]
    split
    · rcases ih with ⟨t, ht⟩
      exact ⟨a :: t, by simp [← ht]⟩
    · exact ⟨[], rfl⟩

theorem stripEnds_mem (s : Str) (c : Char) (h : c ∈ stripEnds s) : c ∈ s := by
  unfold stripEnds at h
  rcases rstripWs_exists_append (s.dropWhile isPySpace) with ⟨t, ht⟩
  rcases dropWhile_exists_append isPySpace s with ⟨t2, ht2⟩
  rw [ht2, ht]
  exact List.mem_append_right _ (List.mem_append_left _ h)

theorem collapseWs_invariants (z : Str) :
    sqzd (collapseWs z) = true ∧
    (∀ c, (collapseWs z).head? = some c → isPySpace c = false) ∧
    (∀ c, (collapseWs z).getLast? = some c → isPySpace c = false) ∧
    (∀ c ∈ collapseWs z, isPySpace c = true → c = ' ') := by
  unfold collapseWs stripEnds squeezeWs
  refine ⟨?_, ?_, ?_, ?_⟩
  · rcases rstripWs_exists_append ((squeezeWsAux false z).dropWhile isPySpace) with ⟨t, ht⟩
    rcases dropWhile_exists_append isPySpace (squeezeWsAux false z) with ⟨t2, ht2⟩
    have h1 : sqzd (squeezeWsAux false z) = true := (squeezeAux_sqzd z).2.1
    have h2 : sqzd ((squeezeWsAux false z).dropWhile isPySpace) = true := by
      rw [ht2] at h1
      exact sqzd_append_right t2 _ h1
    rw [ht] at h2
    exact sqzd_append_left _ t h2
  · intro c h
    exact dropWhile_head isPySpace _ c (rstripWs_head _ c h)
  · intro c h
    exact rstripWs_last _ c h
  · intro c h hsp
    rcases rstripWs_exists_append ((squeezeWsAux false z).dropWhile isPySpace) with ⟨t, ht⟩
    rcases dropWhile_exists_append isPySpace (squeezeWsAux false z) with ⟨t2, ht2⟩
    have hc2 : c ∈ squeezeWsAux false z := by
      rw [ht2, ht]
      exact List.mem_append_right _ (List.mem_append_left _ h)
    rcases squeezeAux_chars z false c hc2 with he | he
    · exact he
    · rw [he.2] at hsp
      cases hsp

theorem collapseWs_fix (w : Str)
    (hsq : sqzd w = true)
    (hh : ∀ c, w.head? = some c → isPySpace c = false)
    (hl : ∀ c, w.getLast? = some c → isPySpace c = false)
    (hsb : ∀ c ∈ w, isPySpace c = true → c = ' ') :
    collapseWs w = w := by
  unfold collapseWs squeezeWs stripEnds
  rw [(squeezeAux_fix w).1 hsb hsq]
  have hdw : w.dropWhile isPySpace = w := by
    cases w with
    | nil => rfl
    | cons a rest =>
      have := hh a rfl
      simp [List.dropWhile, this]
  rw [hdw]
  exact rstripWs_fix w hl

theorem rstripWs_sublist (s : Str) : List.Sublist (rstripWs s) s := by
  rcases rstripWs_exists_append s with ⟨t, ht⟩
  have h2 : List.Sublist (rstripWs s) (rstripWs s ++ t) := List.sublist_append_left _ _
  rw [← ht] at h2
  exact h2

theorem dropWhile_sublist_own (p : Char → Bool) (l : Str) :
    List.Sublist (l.dropWhile p) l := by
  rcases dropWhile_exists_append p l with ⟨t, ht⟩
  have h2 : List.Sublist (l.dropWhile p) (t ++ l.dropWhile p) := List.sublist_append_right _ _
  rw [← ht] at h2
  exact h2

theorem stripEnds_sublist (s : Str) : List.Sublist (stripEnds s) s :=
  (rstripWs_sublist _).trans (dropWhile_sublist_own _ _)

theorem stripLeadingWaw_sublist (s : Str) : List.Sublist (stripLeadingWaw s) s := by
  cases s with
  | nil => exact List.Sublist.refl _
  | cons c rest =>
    simp only [stripLeadingWaw]
    split
    · exact (dropWhile_sublist_own isPySpace rest).trans (List.sublist_cons_self c rest)
    · exact List.Sublist.refl _

theorem unify_cases (d : Char) :
    unifyChar d = d ∨ unifyChar d = 'ا' ∨ unifyChar d = 'ي' ∨ unifyChar d = 'و' ∨
      unifyChar d = 'ه' := by
  unfold unifyChar
  split_ifs <;> simp

theorem unify_keep_tashkeel (d : Char) (h : isTashkeel d = false) :
    isTashkeel (unifyChar d) = false := by
  rcases unify_cases d with h2 | h2 | h2 | h2 | h2 <;> rw [h2] <;> first | exact h | decide

theorem unify_keep_mn (mn : Char → Bool) (ha : mn 'ا' = false) (hy : mn 'ي' = false)
    (hw : mn 'و' = false) (hh : mn 'ه' = false) (d : Char) (h : mn d = false) :
    mn (unifyChar d) = false := by
  rcases unify_cases d with h2 | h2 | h2 | h2 | h2 <;> rw [h2] <;> assumption

theorem unify_keep_punct (d : Char) (h : punctChars.contains d = false) :
    punctChars.contains (unifyChar d) = false := by
  rcases unify_cases d with h2 | h2 | h2 | h2 | h2 <;> rw [h2] <;> first | exact h | decide

theorem unify_idem (d : Char) : unifyChar (unifyChar d) = unifyChar d := by
  rcases unify_cases d with h2 | h2 | h2 | h2 | h2 <;> rw [h2] <;> first | exact h2 | decide

theorem unify_paren_open (c : Char) (h : unifyChar c = '(') : c = '(' := by
  rcases unify_cases c with h2 | h2 | h2 | h2 | h2 <;> rw [h2] at h <;>
    first | exact h | exact absurd h (by decide)

theorem unify_paren_close (c : Char) (h : unifyChar c = ')') : c = ')' := by
  rcases unify_cases c with h2 | h2 | h2 | h2 | h2 <;> rw [h2] at h <;>
    first | exact h | exact absurd h (by decide)

theorem normalize_chars (mn : Char → Bool) (x : Str) : ∀ c ∈ normalize mn x,
    c = ' ' ∨ (isPySpace c = false ∧ ∃ d, d ∈ x ∧ isTashkeel d = false ∧ mn d = false ∧
      punctChars.contains d = false ∧ c = unifyChar d) := by
  intro c hc
  unfold normalize collapseWs at hc
  have hc1 := stripEnds_mem _ c hc
  rcases squeezeAux_chars _ false c hc1 with he | ⟨hc2, hns⟩
  · exact Or.inl he
  · refine Or.inr ⟨hns, ?_⟩
    have hc3 := (stripLeadingWaw_sublist _).subset hc2
    rcases List.mem_map.mp hc3 with ⟨d, hd, hud⟩
    have hd2 := List.mem_filter.mp hd
    have hd3 := (stripParens_sublist _).subset hd2.1
    have hd4 := List.mem_filter.mp hd3
    have hd5 := List.mem_filter.mp hd4.1
    refine ⟨d, hd5.1, ?_, ?_, ?_, hud.symm⟩
    · have := hd5.2
      simpa using this
    · have := hd4.2
      simpa using this
    · have := hd2.2
      simpa using this

theorem normalize_good (mn : Char → Bool) (ha : mn 'ا' = false) (hy : mn 'ي' = false)
    (hw : mn 'و' = false) (hh : mn 'ه' = false) (hs : mn ' ' = false) (x : Str) :
    ∀ c ∈ normalize mn x, isTashkeel c = false ∧ mn c = false ∧
      punctChars.contains c = false ∧ unifyChar c = c ∧ (isPySpace c = true → c = ' ') := by
  intro c hc
  rcases normalize_chars mn x c hc with he | ⟨hns, d, _, ht, hm, hp, hcu⟩
  · subst he
    exact ⟨by decide, hs, by decide, by decide, fun _ => rfl⟩
  · subst hcu
    refine ⟨unify_keep_tashkeel d ht, unify_keep_mn mn ha hy hw hh d hm,
      unify_keep_punct d hp, unify_idem d, fun h2 => ?_⟩
    rw [hns] at h2
    cases h2

theorem sublist_pair_map_unify : ∀ (l : Str),
    List.Sublist ['(', ')'] (l.map unifyChar) → List.Sublist ['(', ')'] l := by
  intro l
  induction l with
  | nil => intro h; simp at h
  | cons c rest ih =>
    intro h
    rw [List.map_cons] at h
    generalize hu : unifyChar c = u at h
    cases h with
    | cons _ h2 => exact (ih h2).cons c
    | cons₂ _ h2 =>
      have hc := unify_paren_open c hu
      subst hc
      have h3 := List.singleton_sublist.mp h2
      rcases List.mem_map.mp h3 with ⟨d, hd, hud⟩
      have hd2 := unify_paren_close d hud
      subst hd2
      exact List.Sublist.cons₂ _ (List.singleton_sublist.mpr hd)

theorem squeeze_mem_nonblank : ∀ (s : Str) (fl : Bool) (c : Char),
    c ∈ squeezeWsAux fl s → c ≠ ' ' → c ∈ s := by
  intro s fl c h hne
  rcases squeezeAux_chars s fl c h with he | he
  · exact absurd he hne
  · exact he.1

theorem squeeze_pair_sub : ∀ (s : Str) (fl : Bool),
    List.Sublist ['(', ')'] (squeezeWsAux fl s) → List.Sublist ['(', ')'] s := by
  intro s
  induction s with
  | nil =>
    intro fl h
    rw [squeezeAux_nil] at h
    simp at h
  | cons a rest ih =>
    intro fl h
    by_cases ha : isPySpace a = true
    · cases fl with
      | true =>
        rw [squeezeAux_cons_space_true a rest ha] at h
        exact (ih true h).cons a
      | false =>
        rw [squeezeAux_cons_space_false a rest ha] at h
        generalize hsp : (' ' : Char) = u at h
        cases h with
        | cons _ h2 => exact (ih true h2).cons a
        | cons₂ _ h2 => exact absurd hsp (by decide)
    · have ha2 : isPySpace a = false := by simpa using ha
      rw [squeezeAux_cons_nonspace fl a rest ha2] at h
      cases h with
      | cons _ h2 => exact (ih false h2).cons a
      | cons₂ _ h2 =>
        have h3 := List.singleton_sublist.mp h2
        have h4 : ')' ∈ rest := squeeze_mem_nonblank rest false ')' h3 (by decide)
        exact List.Sublist.cons₂ _ (List.singleton_sublist.mpr h4)

theorem filter_eq_self_of (p : Char → Bool) : ∀ (l : Str),
    (∀ c ∈ l, p c = true) → l.filter p = l := by
  intro l
  induction l with
  | nil => intro _; rfl
  | cons a rest ih =>
    intro h
    rw [List.filter_cons_of_pos (h a (List.mem_cons_self _ _)),
      ih (fun c hc => h c (List.mem_cons_of_mem _ hc))]

theorem map_id_of (f : Char → Char) : ∀ (l : Str), (∀ c ∈ l, f c = c) → l.map f = l := by
  intro l
  induction l with
  | nil => intro _; rfl
  | cons a rest ih =>
    intro h
    rw [List.map_cons, h a (List.mem_cons_self _ _),
      ih (fun c hc => h c (List.mem_cons_of_mem _ hc))]

/-! ## Helper lemmas on the registry builders -/

theorem alookup_mem {α : Type} : ∀ (l : List (Str × α)) (k : Str) (v : α),
    alookup l k = some v → (k, v) ∈ l := by
  intro l k v h
  induction l with
  | nil => simp [alookup] at h
  | cons p rest ih =>
    obtain ⟨k2, v2⟩ := p
    simp only [alookup] at h
    split at h
    · next he =>
      cases h
      rw [he]
      exact List.mem_cons_self _ _
    · exact List.mem_cons_of_mem _ (ih h)

theorem alookup_append_some {α : Type} : ∀ (l l2 : List (Str × α)) (k : Str) (v : α),
    alookup l k = some v → alookup (l ++ l2) k = some v := by
  intro l l2 k v h
  induction l with
  | nil => simp [alookup] at h
  | cons p rest ih =>
    obtain ⟨k2, v2⟩ := p
    simp only [alookup, List.cons_append] at h ⊢
    split at h
    · rw [if_pos ‹_›]; exact h
    · rw [if_neg ‹_›]; exact ih h

theorem alookup_append_single_self {α : Type} : ∀ (l : List (Str × α)) (k : Str) (v : α),
    alookup l k = none → alookup (l ++ [(k, v)]) k = some v := by
  intro l k v h
  induction l with
  | nil => simp [alookup]
  | cons p rest ih =>
    obtain ⟨k2, v2⟩ := p
    simp only [alookup, List.cons_append] at h ⊢
    split at h
    · cases h
    · rw [if_neg ‹_›]; exact ih h

theorem keys_nodup_unique {α : Type} : ∀ (l : List (Str × α)) (F : Str) (a b : α),
    (l.map Prod.fst).Nodup → (F, a) ∈ l → (F, b) ∈ l → a = b := by
  intro l F a b hnd ha hb
  induction l with
  | nil => simp at ha
  | cons p rest ih =>
    simp only [List.map_cons, List.nodup_cons] at hnd
    rcases List.mem_cons.mp ha with he1 | ht1
    · rcases List.mem_cons.mp hb with he2 | ht2
      · rw [← he1] at he2
        exact ((Prod.mk.injEq _ _ _ _).mp he2).2.symm
      · exfalso
        apply hnd.1
        rw [← he1]
        exact List.mem_map.mpr ⟨(F, b), ht2, rfl⟩
    · rcases List.mem_cons.mp hb with he2 | ht2
      · exfalso
        apply hnd.1
        rw [← he2]
        exact List.mem_map.mpr ⟨(F, a), ht1, rfl⟩
      · exact ih hnd.2 ht1 ht2

theorem two_mem_not_single {l : List Ident} {a b : Ident} (ha : a ∈ l) (hb : b ∈ l)
    (hne : a ≠ b) : ∀ i, l ≠ [i] := by
  intro i he
  subst he
  rw [List.mem_singleton] at ha hb
  exact hne (ha.trans hb.symm)

theorem mem_setInsert_self (s : List Str) (x : Str) : x ∈ setInsert s x := by
  unfold setInsert
  split
  · assumption
  · exact List.mem_append_right _ (List.mem_singleton.mpr rfl)

theorem mem_setInsert_of_mem (s : List Str) (x y : Str) (h : y ∈ s) : y ∈ setInsert s x := by
  unfold setInsert
  split
  · exact h
  · exact List.mem_append_left _ h

theorem addClaim_self : ∀ (raw : List (Str × List Ident)) (norm : Str) (nid : Ident),
    alookup (addClaim raw norm nid) norm =
      some (match alookup raw norm with
            | some ids => setInsert ids nid
            | none => [nid]) := by
  intro raw norm nid
  induction raw with
  | nil => simp [addClaim, alookup]
  | cons p rest ih =>
    obtain ⟨k, ids⟩ := p
    by_cases hk : k = norm
    · subst hk
      simp [addClaim, alookup]
    · simp [addClaim, alookup, hk, ih]

theorem addClaim_other : ∀ (raw : List (Str × List Ident)) (norm : Str) (nid : Ident)
    (k : Str), k ≠ norm → alookup (addClaim raw norm nid) k = alookup raw k := by
  intro raw norm nid k hk
  induction raw with
  | nil =>
    simp only [addClaim, alookup]
    rw [if_neg (Ne.symm hk)]
  | cons p rest ih =>
    obtain ⟨k2, ids⟩ := p
    by_cases hk2 : k2 = norm
    · subst hk2
      simp only [addClaim, if_pos rfl, alookup]
      rw [if_neg (Ne.symm hk), if_neg (Ne.symm hk)]
    · simp only [addClaim, if_neg hk2, alookup]
      split
      · rfl
      · exact ih

theorem addClaim_keys_sub : ∀ (raw : List (Str × List Ident)) (norm : Str) (nid : Ident)
    (k : Str), k ∈ (addClaim raw norm nid).map Prod.fst →
      k ∈ raw.map Prod.fst ∨ k = norm := by
  intro raw norm nid
  induction raw with
  | nil =>
    intro k h
    simp [addClaim] at h
    exact Or.inr h
  | cons p rest ih =>
    intro k h
    obtain ⟨k2, ids⟩ := p
    by_cases hk2 : k2 = norm
    · subst hk2
      have hred : addClaim ((k2, ids) :: rest) k2 nid = (k2, setInsert ids nid) :: rest := by
        simp [addClaim]
      rw [hred, List.map_cons] at h
      rcases List.mem_cons.mp h with h | h
      · exact Or.inr h
      · exact Or.inl (List.mem_cons_of_mem _ h)
    · simp only [addClaim, if_neg hk2, List.map_cons, List.mem_cons] at h
      rcases h with h | h
      · exact Or.inl (by simp [h])
      · rcases ih k h with h2 | h2
        · exact Or.inl (List.mem_cons_of_mem _ h2)
        · exact Or.inr h2

theorem addClaim_keys_nodup : ∀ (raw : List (Str × List Ident)) (norm : Str) (nid : Ident),
    (raw.map Prod.fst).Nodup → ((addClaim raw norm nid).map Prod.fst).Nodup := by
  intro raw norm nid
  induction raw with
  | nil =>
    intro _
    simp [addClaim]
  | cons p rest ih =>
    intro h
    obtain ⟨k2, ids⟩ := p
    simp only [List.map_cons, List.nodup_cons] at h
    by_cases hk2 : k2 = norm
    · subst hk2
      have hred : addClaim ((k2, ids) :: rest) k2 nid = (k2, setInsert ids nid) :: rest := by
        simp [addClaim]
      rw [hred, List.map_cons]
      exact List.nodup_cons.mpr h
    · simp only [addClaim, if_neg hk2, List.map_cons, List.nodup_cons]
      refine ⟨fun hmem => ?_, ih h.2⟩
      rcases addClaim_keys_sub rest norm nid k2 hmem with h2 | h2
      · exact h.1 h2
      · exact hk2 h2

theorem accumClaims_keys_nodup : ∀ (cs : List (Ident × Str)) (raw : List (Str × List Ident)),
    (raw.map Prod.fst).Nodup → (((accumClaims cs raw).map Prod.fst)).Nodup := by
  intro cs
  induction cs with
  | nil => intro raw h; exact h
  | cons p rest ih =>
    intro raw h
    obtain ⟨j, G⟩ := p
    exact ih _ (addClaim_keys_nodup raw G j h)

theorem accumClaims_some_mono : ∀ (cs : List (Ident × Str)) (raw : List (Str × List Ident))
    (F : Str) (ids : List Ident), alookup raw F = some ids →
    ∃ ids2, alookup (accumClaims cs raw) F = some ids2 ∧ ∀ x ∈ ids, x ∈ ids2 := by
  intro cs
  induction cs with
  | nil => intro raw F ids h; exact ⟨ids, h, fun x hx => hx⟩
  | cons p rest ih =>
    intro raw F ids h
    obtain ⟨j, G⟩ := p
    simp only [accumClaims]
    by_cases hGF : G = F
    · subst hGF
      have h2 := addClaim_self raw G j
      rw [h] at h2
      rcases ih (addClaim raw G j) G (setInsert ids j) h2 with ⟨ids2, h3, h4⟩
      exact ⟨ids2, h3, fun x hx => h4 x (mem_setInsert_of_mem _ _ _ hx)⟩
    · refine ih _ F ids ?_
      rw [addClaim_other raw G j F (fun he => hGF he.symm)]
      exact h

theorem accumClaims_claim : ∀ (cs : List (Ident × Str)) (raw : List (Str × List Ident))
    (i : Ident) (F : Str), (i, F) ∈ cs →
    ∃ ids2, alookup (accumClaims cs raw) F = some ids2 ∧ i ∈ ids2 := by
  intro cs
  induction cs with
  | nil => intro raw i F h; simp at h
  | cons p rest ih =>
    intro raw i F h
    obtain ⟨j, G⟩ := p
    rcases List.mem_cons.mp h with he | ht
    · injection he with hji hGF
      subst hji
      subst hGF
      simp only [accumClaims]
      have h2 := addClaim_self raw F i
      rcases hv : alookup raw F with _ | ids0
      · rw [hv] at h2
        rcases accumClaims_some_mono rest _ F [i] h2 with ⟨ids2, h3, h4⟩
        exact ⟨ids2, h3, h4 i (List.mem_singleton.mpr rfl)⟩
      · rw [hv] at h2
        rcases accumClaims_some_mono rest _ F (setInsert ids0 i) h2 with ⟨ids2, h3, h4⟩
        exact ⟨ids2, h3, h4 i (mem_setInsert_self _ _)⟩
    · exact ih (addClaim raw G j) i F ht

theorem splitRaw_cons_single (norm : Str) (i : Ident) (rest : List (Str × List Ident)) :
    splitRaw ((norm, [i]) :: rest) =
      ((norm, i) :: (splitRaw rest).1, (splitRaw rest).2) := by
  cases hsr : splitRaw rest with
  | mk lk col => simp [splitRaw, hsr]

theorem splitRaw_cons_other (norm : Str) (ids : List Ident) (rest : List (Str × List Ident))
    (h : ∀ i, ids ≠ [i]) :
    splitRaw ((norm, ids) :: rest) =
      ((splitRaw rest).1, norm :: (splitRaw rest).2) := by
  cases hsr : splitRaw rest with
  | mk lk col =>
    rcases ids with _ | ⟨a, _ | ⟨b, tl⟩⟩
    · simp [splitRaw, hsr]
    · exact absurd rfl (h a)
    · simp [splitRaw, hsr]

theorem splitRaw_lookup_sound : ∀ (raw : List (Str × List Ident)) (F : Str) (i : Ident),
    alookup (splitRaw raw).1 F = some i → (F, [i]) ∈ raw := by
  intro raw
  induction raw with
  | nil => intro F i h; simp [splitRaw, alookup] at h
  | cons p rest ih =>
    intro F i h
    obtain ⟨norm, ids⟩ := p
    by_cases hs : ∃ x, ids = [x]
    · rcases hs with ⟨x, rfl⟩
      rw [splitRaw_cons_single] at h
      simp only [alookup] at h
      split at h
      · next he =>
        cases h
        rw [he]
        exact List.mem_cons_self _ _
      · exact List.mem_cons_of_mem _ (ih F i h)
    · rw [splitRaw_cons_other norm ids rest (fun x he => hs ⟨x, he⟩)] at h
      exact List.mem_cons_of_mem _ (ih F i h)

theorem splitRaw_lookup_complete : ∀ (raw : List (Str × List Ident)) (F : Str) (i : Ident),
    (raw.map Prod.fst).Nodup → (F, [i]) ∈ raw → alookup (splitRaw raw).1 F = some i := by
  intro raw
  induction raw with
  | nil => intro F i _ h; simp at h
  | cons p rest ih =>
    intro F i hnd h
    obtain ⟨norm, ids⟩ := p
    simp only [List.map_cons, List.nodup_cons] at hnd
    rcases List.mem_cons.mp h with he | ht
    · injection he with h1 h2
      subst h1
      subst h2
      rw [splitRaw_cons_single]
      simp [alookup]
    · have hne : norm ≠ F := by
        intro he2
        subst he2
        exact hnd.1 (List.mem_map.mpr ⟨(norm, [i]), ht, rfl⟩)
      by_cases hs : ∃ x, ids = [x]
      · rcases hs with ⟨x, rfl⟩
        rw [splitRaw_cons_single]
        simp only [alookup, if_neg hne]
        exact ih F i hnd.2 ht
      · rw [splitRaw_cons_other norm ids rest (fun x he2 => hs ⟨x, he2⟩)]
        exact ih F i hnd.2 ht

theorem splitRaw_col_of_mem : ∀ (raw : List (Str × List Ident)) (F : Str) (ids : List Ident),
    (F, ids) ∈ raw → (∀ i, ids ≠ [i]) → F ∈ (splitRaw raw).2 := by
  intro raw
  induction raw with
  | nil => intro F ids h _; simp at h
  | cons p rest ih =>
    intro F ids h hni
    obtain ⟨norm, ids2⟩ := p
    rcases List.mem_cons.mp h with he | ht
    · injection he with h1 h2
      subst h1
      subst h2
      rw [splitRaw_cons_other F ids rest hni]
      exact List.mem_cons_self _ _
    · by_cases hs : ∃ x, ids2 = [x]
      · rcases hs with ⟨x, rfl⟩
        rw [splitRaw_cons_single]
        exact ih F ids ht hni
      · rw [splitRaw_cons_other norm ids2 rest (fun x he2 => hs ⟨x, he2⟩)]
        exact List.mem_cons_of_mem _ (ih F ids ht hni)

theorem splitRaw_col_sound : ∀ (raw : List (Str × List Ident)) (F : Str),
    F ∈ (splitRaw raw).2 → ∃ ids, (F, ids) ∈ raw ∧ ∀ i, ids ≠ [i] := by
  intro raw
  induction raw with
  | nil => intro F h; simp [splitRaw] at h
  | cons p rest ih =>
    intro F h
    obtain ⟨norm, ids⟩ := p
    by_cases hs : ∃ x, ids = [x]
    · rcases hs with ⟨x, rfl⟩
      rw [splitRaw_cons_single] at h
      rcases ih F h with ⟨ids2, hm, hni⟩
      exact ⟨ids2, List.mem_cons_of_mem _ hm, hni⟩
    · have hni : ∀ x, ids ≠ [x] := fun x he => hs ⟨x, he⟩
      rw [splitRaw_cons_other norm ids rest hni] at h
      rcases List.mem_cons.mp h with he | ht
      · subst he
        exact ⟨ids, List.mem_cons_self _ _, hni⟩
      · rcases ih F ht with ⟨ids2, hm, hni2⟩
        exact ⟨ids2, List.mem_cons_of_mem _ hm, hni2⟩

theorem splitRaw_lookup_none (raw : List (Str × List Ident)) (F : Str) (ids : List Ident)
    (hnd : (raw.map Prod.fst).Nodup) (h : (F, ids) ∈ raw) (hni : ∀ i, ids ≠ [i]) :
    alookup (splitRaw raw).1 F = none := by
  cases hl : alookup (splitRaw raw).1 F with
  | none => rfl
  | some i =>
    exfalso
    have := keys_nodup_unique raw F ids [i] hnd h (splitRaw_lookup_sound raw F i hl)
    exact hni i this

theorem splitRaw_col_not (raw : List (Str × List Ident)) (F : Str) (i : Ident)
    (hnd : (raw.map Prod.fst).Nodup) (h : (F, [i]) ∈ raw) :
    F ∉ (splitRaw raw).2 := by
  intro hc
  rcases splitRaw_col_sound raw F hc with ⟨ids, hm, hni⟩
  exact hni i (keys_nodup_unique raw F ids [i] hnd hm h)

/-! ## Helper lemmas on `build_lookup` (enrich_narrator_ids.py) -/

theorem buildLookupAux_cons (mn : Char → Bool) (j : Ident) (s : Str)
    (rest : List (Ident × Str)) (lk : List (Str × Ident)) (col : List Str) :
    buildLookupAux mn ((j, s) :: rest) (lk, col) =
      if normalize mn s = [] then buildLookupAux mn rest (lk, col)
      else
        match alookup lk (normalize mn s) with
        | some v =>
          buildLookupAux mn rest (lk, if v ≠ j then setInsert col (normalize mn s) else col)
        | none => buildLookupAux mn rest (lk ++ [(normalize mn s, j)], col) := rfl

theorem buildLookupAux_col_mono (mn : Char → Bool) : ∀ (ps : List (Ident × Str))
    (lk : List (Str × Ident)) (col : List Str) (F : Str),
    F ∈ col → F ∈ (buildLookupAux mn ps (lk, col)).2 := by
  intro ps
  induction ps with
  | nil => intro lk col F h; exact h
  | cons p rest ih =>
    intro lk col F h
    obtain ⟨j, s⟩ := p
    rw [buildLookupAux_cons]
    split
    · exact ih lk col F h
    · cases hlv : alookup lk (normalize mn s) with
      | some v =>
        dsimp only
        split
        · exact ih _ _ F (mem_setInsert_of_mem _ _ _ h)
        · exact ih _ _ F h
      | none => exact ih _ _ F h

theorem buildLookupAux_some_mono (mn : Char → Bool) : ∀ (ps : List (Ident × Str))
    (lk : List (Str × Ident)) (col : List Str) (F : Str) (v : Ident),
    alookup lk F = some v → alookup (buildLookupAux mn ps (lk, col)).1 F = some v := by
  intro ps
  induction ps with
  | nil => intro lk col F v h; exact h
  | cons p rest ih =>
    intro lk col F v h
    obtain ⟨j, s⟩ := p
    rw [buildLookupAux_cons]
    split
    · exact ih lk col F v h
    · cases hlv : alookup lk (normalize mn s) with
      | some w =>
        dsimp only
        split
        · exact ih _ _ F v h
        · exact ih _ _ F v h
      | none => exact ih _ _ F v (alookup_append_some lk _ F v h)

theorem buildLookupAux_conflict (mn : Char → Bool) : ∀ (ps : List (Ident × Str))
    (lk : List (Str × Ident)) (col : List Str) (v i : Ident) (r : Str) (F : Str),
    alookup lk F = some v → v ≠ i → (i, r) ∈ ps → normalize mn r = F → F ≠ [] →
    F ∈ (buildLookupAux mn ps (lk, col)).2 := by
  intro ps
  induction ps with
  | nil => intro lk col v i r F _ _ h _ _; simp at h
  | cons p rest ih =>
    intro lk col v i r F hlk hvi hmem hnr hF
    obtain ⟨j, s⟩ := p
    rcases List.mem_cons.mp hmem with he | ht
    · injection he with h1 h2
      subst h1
      subst h2
      rw [buildLookupAux_cons, hnr, if_neg hF, hlk]
      dsimp only
      rw [if_pos hvi]
      exact buildLookupAux_col_mono mn rest lk _ F (mem_setInsert_self _ _)
    · rw [buildLookupAux_cons]
      split
      · exact ih lk col v i r F hlk hvi ht hnr hF
      · cases hlv : alookup lk (normalize mn s) with
        | some w =>
          dsimp only
          split
          · exact ih _ _ v i r F hlk hvi ht hnr hF
          · exact ih _ _ v i r F hlk hvi ht hnr hF
        | none =>
          refine ih _ col v i r F ?_ hvi ht hnr hF
          exact alookup_append_some lk _ F v hlk

theorem buildLookupAux_claim (mn : Char → Bool) : ∀ (ps : List (Ident × Str))
    (lk : List (Str × Ident)) (col : List Str) (i : Ident) (r : Str) (F : Str),
    (i, r) ∈ ps → normalize mn r = F → F ≠ [] →
    (alookup (buildLookupAux mn ps (lk, col)).1 F).isSome = true := by
  intro ps
  induction ps with
  | nil => intro lk col i r F h _ _; simp at h
  | cons p rest ih =>
    intro lk col i r F hmem hnr hF
    obtain ⟨j, s⟩ := p
    rcases List.mem_cons.mp hmem with he | ht
    · injection he with h1 h2
      subst h1
      subst h2
      rw [buildLookupAux_cons, hnr, if_neg hF]
      cases hlv : alookup lk F with
      | some v =>
        dsimp only
        split
        · rw [buildLookupAux_some_mono mn rest lk _ F v hlv]; rfl
        · rw [buildLookupAux_some_mono mn rest lk _ F v hlv]; rfl
      | none =>
        rw [buildLookupAux_some_mono mn rest _ col F i
          (alookup_append_single_self lk F i hlv)]
        rfl
    · rw [buildLookupAux_cons]
      split
      · exact ih lk col i r F ht hnr hF
      · cases hlv : alookup lk (normalize mn s) with
        | some w =>
          dsimp only
          split
          · exact ih _ _ i r F ht hnr hF
          · exact ih _ _ i r F ht hnr hF
        | none => exact ih _ _ i r F ht hnr hF

theorem buildLookupAux_two (mn : Char → Bool) : ∀ (ps : List (Ident × Str))
    (lk : List (Str × Ident)) (col : List Str) (i1 i2 : Ident) (r1 r2 : Str) (F : Str),
    i1 ≠ i2 → (i1, r1) ∈ ps → (i2, r2) ∈ ps →
    normalize mn r1 = F → normalize mn r2 = F → F ≠ [] →
    F ∈ (buildLookupAux mn ps (lk, col)).2 := by
  intro ps
  induction ps with
  | nil => intro lk col i1 i2 r1 r2 F _ h _ _ _ _; simp at h
  | cons p rest ih =>
    intro lk col i1 i2 r1 r2 F hne h1 h2 hn1 hn2 hF
    obtain ⟨j, s⟩ := p
    by_cases hGF : normalize mn s = F
    · rw [buildLookupAux_cons, hGF, if_neg hF]
      cases hlv : alookup lk F with
      | some v =>
        dsimp only
        by_cases hvj : v = j
        · rw [if_neg (by simp [hvj])]
          by_cases hv1 : i1 = v
          · have hi2 : (i2, r2) ∈ rest := by
              rcases List.mem_cons.mp h2 with he | ht
              · exfalso
                injection he with hij _
                exact hne (hv1.trans (hvj.trans hij.symm))
              · exact ht
            refine buildLookupAux_conflict mn rest lk _ v i2 r2 F hlv ?_ hi2 hn2 hF
            intro he
            exact hne (hv1.trans he)
          · have hi1 : (i1, r1) ∈ rest := by
              rcases List.mem_cons.mp h1 with he | ht
              · exfalso
                injection he with hij _
                exact hv1 (hij.trans hvj.symm)
              · exact ht
            refine buildLookupAux_conflict mn rest lk _ v i1 r1 F hlv ?_ hi1 hn1 hF
            intro he
            exact hv1 he.symm
        · rw [if_pos hvj]
          exact buildLookupAux_col_mono mn rest lk _ F (mem_setInsert_self _ _)
      | none =>
        have hsome : alookup (lk ++ [(F, j)]) F = some j :=
          alookup_append_single_self lk F j hlv
        by_cases hj1 : i1 = j
        · have hi2 : (i2, r2) ∈ rest := by
            rcases List.mem_cons.mp h2 with he | ht
            · exfalso
              injection he with hij _
              exact hne (hj1.trans hij.symm)
            · exact ht
          refine buildLookupAux_conflict mn rest _ col j i2 r2 F hsome ?_ hi2 hn2 hF
          intro he
          exact hne (hj1.trans he)
        · have hi1 : (i1, r1) ∈ rest := by
            rcases List.mem_cons.mp h1 with he | ht
            · exfalso
              injection he with hij _
              exact hj1 hij
            · exact ht
          refine buildLookupAux_conflict mn rest _ col j i1 r1 F hsome ?_ hi1 hn1 hF
          intro he
          exact hj1 he.symm
    · have hi1 : (i1, r1) ∈ rest := by
        rcases List.mem_cons.mp h1 with he | ht
        · exfalso
          apply hGF
          injection he with _ hsr
          rw [← hsr]
          exact hn1
        · exact ht
      have hi2 : (i2, r2) ∈ rest := by
        rcases List.mem_cons.mp h2 with he | ht
        · exfalso
          apply hGF
          injection he with _ hsr
          rw [← hsr]
          exact hn2
        · exact ht
      rw [buildLookupAux_cons]
      split
      · exact ih lk col i1 i2 r1 r2 F hne hi1 hi2 hn1 hn2 hF
      · cases hlv : alookup lk (normalize mn s) with
        | some w =>
          dsimp only
          split
          · exact ih _ _ i1 i2 r1 r2 F hne hi1 hi2 hn1 hn2 hF
          · exact ih _ _ i1 i2 r1 r2 F hne hi1 hi2 hn1 hn2 hF
        | none => exact ih _ _ i1 i2 r1 r2 F hne hi1 hi2 hn1 hn2 hF

/-! ## Claimant membership bridges -/

theorem shamelaClaims_mem (mn : Char → Bool) (objs : List ShamelaObj) (i : Ident) (nm : Str)
    (h : (i, nm) ∈ shamelaPairs objs) (hi : i ≠ []) (hn : nm ≠ [])
    (hnorm : normalize mn nm ≠ []) :
    (i, normalize mn nm) ∈ shamelaClaims mn objs := by
  unfold shamelaClaims
  refine List.mem_filterMap.mpr ⟨(i, nm), h, ?_⟩
  simp [hi, hn, hnorm]

theorem normSetAux_mono (mn : Char → Bool) : ∀ (names : List Str) (acc : List Str) (x : Str),
    x ∈ acc → x ∈ normSetAux mn names acc := by
  intro names
  induction names with
  | nil => intro acc x h; exact h
  | cons r rest ih =>
    intro acc x h
    simp only [normSetAux]
    split
    · exact ih acc x h
    · exact ih _ x (mem_setInsert_of_mem _ _ _ h)

theorem normSetOf_mem (mn : Char → Bool) : ∀ (names : List Str) (acc : List Str) (r : Str),
    r ∈ names → normalize mn r ≠ [] → normalize mn r ∈ normSetAux mn names acc := by
  intro names
  induction names with
  | nil => intro acc r h _; simp at h
  | cons r2 rest ih =>
    intro acc r h hne
    rcases List.mem_cons.mp h with he | ht
    · subst he
      simp only [normSetAux]
      rw [if_neg hne]
      exact normSetAux_mono mn rest _ _ (mem_setInsert_self _ _)
    · simp only [normSetAux]
      split
      · exact ih acc r ht hne
      · exact ih _ r ht hne

theorem idToNorms_mem (mn : Char → Bool) : ∀ (nn : List (Ident × List Str)) (i : Ident)
    (names : List Str), (i, names) ∈ nn → normSetOf mn names ≠ [] →
    (i, normSetOf mn names) ∈ idToNorms mn nn := by
  intro nn
  induction nn with
  | nil => intro i names h _; simp at h
  | cons p rest ih =>
    intro i names h hne
    obtain ⟨j, ms⟩ := p
    rcases List.mem_cons.mp h with he | ht
    · injection he with h1 h2
      subst h1
      subst h2
      simp only [idToNorms]
      rw [if_neg hne]
      exact List.mem_cons_self _ _
    · simp only [idToNorms]
      split
      · exact ih i names ht hne
      · exact List.mem_cons_of_mem _ (ih i names ht hne)

theorem narratorClaims_mem : ∀ (itn : List (Ident × List Str)) (i : Ident)
    (norms : List Str) (F : Str), (i, norms) ∈ itn → F ∈ norms →
    (i, F) ∈ narratorClaims itn := by
  intro itn i norms F h hF
  unfold narratorClaims
  refine List.mem_flatten.mpr ⟨norms.map (fun nm => (i, nm)), ?_, ?_⟩
  · exact List.mem_map.mpr ⟨(i, norms), h, rfl⟩
  · exact List.mem_map.mpr ⟨F, hF, rfl⟩

theorem bnl_proj (mn : Char → Bool) (nn : List (Ident × List Str)) :
    (build_narrator_name_lookup mn nn).1 =
      (splitRaw (accumClaims (narratorClaims (idToNorms mn nn)) [])).1 ∧
    (build_narrator_name_lookup mn nn).2.1 =
      (splitRaw (accumClaims (narratorClaims (idToNorms mn nn)) [])).2 := by
  unfold build_narrator_name_lookup
  cases hsp : splitRaw (accumClaims (narratorClaims (idToNorms mn nn)) []) with
  | mk lk col => simp [hsp]

/-- The form claimed by two distinct identities lands in the collision set
and not in the lookup — common core for both set-based builders. -/
theorem accum_split_two (cs : List (Ident × Str)) (i1 i2 : Ident) (F : Str)
    (h1 : (i1, F) ∈ cs) (h2 : (i2, F) ∈ cs) (hne : i1 ≠ i2) :
    F ∈ (splitRaw (accumClaims cs [])).2 ∧
    alookup (splitRaw (accumClaims cs [])).1 F = none := by
  have hnd : (((accumClaims cs ([] : List (Str × List Ident))).map Prod.fst)).Nodup :=
    accumClaims_keys_nodup cs [] (by simp)
  rcases accumClaims_claim cs [] i1 F h1 with ⟨ids, hl, hi1⟩
  rcases accumClaims_claim cs [] i2 F h2 with ⟨ids2, hl2, hi2⟩
  rw [hl] at hl2
  cases hl2
  have hns : ∀ i, ids ≠ [i] := two_mem_not_single hi1 hi2 hne
  have hmem := alookup_mem _ F ids hl
  exact ⟨splitRaw_col_of_mem _ F ids hmem hns,
    splitRaw_lookup_none _ F ids hnd hmem hns⟩

/-- A claimed form lands in exactly one of the lookup and the collision set —
common core for both set-based builders. -/
theorem accum_split_exactly_one (cs : List (Ident × Str)) (i : Ident) (F : Str)
    (h : (i, F) ∈ cs) :
    ((alookup (splitRaw (accumClaims cs [])).1 F).isSome = true ∧
      F ∉ (splitRaw (accumClaims cs [])).2) ∨
    (alookup (splitRaw (accumClaims cs [])).1 F = none ∧
      F ∈ (splitRaw (accumClaims cs [])).2) := by
  have hnd : (((accumClaims cs ([] : List (Str × List Ident))).map Prod.fst)).Nodup :=
    accumClaims_keys_nodup cs [] (by simp)
  rcases accumClaims_claim cs [] i F h with ⟨ids, hl, hi⟩
  have hmem := alookup_mem _ F ids hl
  by_cases hs : ∃ x, ids = [x]
  · rcases hs with ⟨x, rfl⟩
    left
    constructor
    · rw [splitRaw_lookup_complete _ F x hnd hmem]; rfl
    · exact splitRaw_col_not _ F x hnd hmem
  · have hns : ∀ x, ids ≠ [x] := fun x he => hs ⟨x, he⟩
    right
    exact ⟨splitRaw_lookup_none _ F ids hnd hmem hns,
      splitRaw_col_of_mem _ F ids hmem hns⟩

/-- Lookup keys and collision set are disjoint — common core. -/
theorem accum_split_disjoint (cs : List (Ident × Str)) (F : Str) :
    ¬((alookup (splitRaw (accumClaims cs [])).1 F).isSome = true ∧
      F ∈ (splitRaw (accumClaims cs [])).2) := by
  rintro ⟨hsome, hcol⟩
  have hnd : (((accumClaims cs ([] : List (Str × List Ident))).map Prod.fst)).Nodup :=
    accumClaims_keys_nodup cs [] (by simp)
  rcases Option.isSome_iff_exists.mp hsome with ⟨x, hx⟩
  have hmem := splitRaw_lookup_sound _ F x hx
  rcases splitRaw_col_sound _ F hcol with ⟨ids, hm2, hns⟩
  exact hns x (keys_nodup_unique _ F ids [x] hnd hm2 hmem)

/-! ## Claim theorems -/

/-- C1, counterexample: with identities `"1"` and `"2"` both claiming the
form `"ب"`, `build_lookup` of `enrich_narrator_ids.py` puts the form in the
collision set yet keeps it as a key of the lookup (bound to the first
claimant) — so a collided form can be a key of the plain lookup table,
contrary to the claim. -/
theorem c1_counterexample :
    (str "ب") ∈ (build_lookup mnModel nnColl).2 ∧
    alookup (build_lookup mnModel nnColl).1 (str "ب") = some (str "1") := by
  exact ⟨by decide, by decide⟩

theorem flattenNames_mem : ∀ (nn : List (Ident × List Str)) (i : Ident)
    (names : List Str) (r : Str), (i, names) ∈ nn → r ∈ names →
    (i, r) ∈ flattenNames nn := by
  intro nn i names r h hr
  unfold flattenNames
  refine List.mem_flatten.mpr ⟨names.map (fun r2 => (i, r2)), ?_, ?_⟩
  · exact List.mem_map.mpr ⟨(i, names), h, rfl⟩
  · exact List.mem_map.mpr ⟨r, hr, rfl⟩

/-- C1, amended: for every pair of distinct identities sharing a normalized
form F, `build_shamela_lookup` and `build_narrator_name_lookup` put F in the
collision set and keep it out of the lookup; `build_lookup` of
`enrich_narrator_ids.py` also puts F in its collision set but retains F as a
lookup key (bound to the first claiming identity). -/
theorem c1_collision_registration :
    (∀ (mn : Char → Bool) (objs : List ShamelaObj) (i1 i2 : Ident) (n1 n2 F : Str),
      (i1, n1) ∈ shamelaPairs objs → (i2, n2) ∈ shamelaPairs objs →
      i1 ≠ [] → i2 ≠ [] → n1 ≠ [] → n2 ≠ [] →
      normalize mn n1 = F → normalize mn n2 = F → F ≠ [] → i1 ≠ i2 →
      F ∈ (build_shamela_lookup mn objs).2 ∧
        alookup (build_shamela_lookup mn objs).1 F = none) ∧
    (∀ (mn : Char → Bool) (nn : List (Ident × List Str)) (i1 i2 : Ident)
      (names1 names2 : List Str) (r1 r2 F : Str),
      (i1, names1) ∈ nn → (i2, names2) ∈ nn → r1 ∈ names1 → r2 ∈ names2 →
      normalize mn r1 = F → normalize mn r2 = F → F ≠ [] → i1 ≠ i2 →
      F ∈ (build_narrator_name_lookup mn nn).2.1 ∧
        alookup (build_narrator_name_lookup mn nn).1 F = none) ∧
    (∀ (mn : Char → Bool) (nn : List (Ident × List Str)) (i1 i2 : Ident)
      (names1 names2 : List Str) (r1 r2 F : Str),
      (i1, names1) ∈ nn → (i2, names2) ∈ nn → r1 ∈ names1 → r2 ∈ names2 →
      normalize mn r1 = F → normalize mn r2 = F → F ≠ [] → i1 ≠ i2 →
      F ∈ (build_lookup mn nn).2 ∧
        (alookup (build_lookup mn nn).1 F).isSome = true) := by
  refine ⟨?_, ?_, ?_⟩
  · intro mn objs i1 i2 n1 n2 F hp1 hp2 hi1 hi2 hn1 hn2 hm1 hm2 hF hne
    have hc1 : (i1, F) ∈ shamelaClaims mn objs := by
      have := shamelaClaims_mem mn objs i1 n1 hp1 hi1 hn1 (by rw [hm1]; exact hF)
      rw [hm1] at this
      exact this
    have hc2 : (i2, F) ∈ shamelaClaims mn objs := by
      have := shamelaClaims_mem mn objs i2 n2 hp2 hi2 hn2 (by rw [hm2]; exact hF)
      rw [hm2] at this
      exact this
    exact accum_split_two _ i1 i2 F hc1 hc2 hne
  · intro mn nn i1 i2 names1 names2 r1 r2 F h1 h2 hr1 hr2 hm1 hm2 hF hne
    have hF1 : normalize mn r1 ≠ [] := by rw [hm1]; exact hF
    have hF2 : normalize mn r2 ≠ [] := by rw [hm2]; exact hF
    have hns1 : F ∈ normSetOf mn names1 := by
      rw [← hm1]; exact normSetOf_mem mn names1 [] r1 hr1 hF1
    have hns2 : F ∈ normSetOf mn names2 := by
      rw [← hm2]; exact normSetOf_mem mn names2 [] r2 hr2 hF2
    have hc1 : (i1, F) ∈ narratorClaims (idToNorms mn nn) :=
      narratorClaims_mem _ i1 _ F
        (idToNorms_mem mn nn i1 names1 h1 (List.ne_nil_of_mem hns1)) hns1
    have hc2 : (i2, F) ∈ narratorClaims (idToNorms mn nn) :=
      narratorClaims_mem _ i2 _ F
        (idToNorms_mem mn nn i2 names2 h2 (List.ne_nil_of_mem hns2)) hns2
    have hmain := accum_split_two _ i1 i2 F hc1 hc2 hne
    rw [(bnl_proj mn nn).1, (bnl_proj mn nn).2]
    exact hmain
  · intro mn nn i1 i2 names1 names2 r1 r2 F h1 h2 hr1 hr2 hm1 hm2 hF hne
    have hf1 := flattenNames_mem nn i1 names1 r1 h1 hr1
    have hf2 := flattenNames_mem nn i2 names2 r2 h2 hr2
    exact ⟨buildLookupAux_two mn (flattenNames nn) [] [] i1 i2 r1 r2 F hne hf1 hf2 hm1 hm2 hF,
      buildLookupAux_claim mn (flattenNames nn) [] [] i1 r1 F hf1 hm1 hF⟩

/-- A Shamela object whose single block has two distinct identities claiming
the same narrator name. -/
def objColl : ShamelaObj :=
  ⟨true, [⟨[], [], [⟨str "1", str "ب"⟩, ⟨str "2", str "ب"⟩]⟩], 3⟩

/-- C1 witness: all three builders at concrete collided sources. -/
theorem c1_collision_registration_witness :
    (str "ب" ∈ (build_shamela_lookup mnModel [objColl]).2 ∧
      alookup (build_shamela_lookup mnModel [objColl]).1 (str "ب") = none) ∧
    (str "ب" ∈ (build_narrator_name_lookup mnModel nnColl).2.1 ∧
      alookup (build_narrator_name_lookup mnModel nnColl).1 (str "ب") = none) ∧
    (str "ب" ∈ (build_lookup mnModel nnColl).2 ∧
      (alookup (build_lookup mnModel nnColl).1 (str "ب")).isSome = true) :=
  ⟨c1_collision_registration.1 mnModel [objColl] (str "1") (str "2") (str "ب") (str "ب")
      (str "ب") (by decide) (by decide) (by decide) (by decide) (by decide) (by decide)
      (by decide) (by decide) (by decide) (by decide),
   c1_collision_registration.2.1 mnModel nnColl (str "1") (str "2") [str "ب"] [str "ب"]
      (str "ب") (str "ب") (str "ب") (by decide) (by decide) (by decide) (by decide)
      (by decide) (by decide) (by decide) (by decide),
   c1_collision_registration.2.2 mnModel nnColl (str "1") (str "2") [str "ب"] [str "ب"]
      (str "ب") (str "ب") (str "ب") (by decide) (by decide) (by decide) (by decide)
      (by decide) (by decide) (by decide) (by decide)⟩

/-- C10: the set-based builders partition the claimed normalized forms —
every surviving claim's form is in exactly one of the lookup and the
collision set, the two are disjoint, and therefore the
`norm not in collision_set` guards of Pass 1 and `_try` are redundant for
these two tables (`isSome ∧ ∉ collision` collapses to `isSome`). -/
theorem c10_partition_guard_redundant :
    ∀ (mn : Char → Bool) (objs : List ShamelaObj) (nn : List (Ident × List Str)),
      (∀ (i : Ident) (norm : Str), (i, norm) ∈ shamelaClaims mn objs →
        ((alookup (build_shamela_lookup mn objs).1 norm).isSome = true ∧
          norm ∉ (build_shamela_lookup mn objs).2) ∨
        (alookup (build_shamela_lookup mn objs).1 norm = none ∧
          norm ∈ (build_shamela_lookup mn objs).2)) ∧
      (∀ F, ((alookup (build_shamela_lookup mn objs).1 F).isSome = true ∧
          F ∉ (build_shamela_lookup mn objs).2) ↔
        (alookup (build_shamela_lookup mn objs).1 F).isSome = true) ∧
      (∀ (i : Ident) (names : List Str) (r : Str),
        (i, names) ∈ nn → r ∈ names → normalize mn r ≠ [] →
        ((alookup (build_narrator_name_lookup mn nn).1 (normalize mn r)).isSome = true ∧
          normalize mn r ∉ (build_narrator_name_lookup mn nn).2.1) ∨
        (alookup (build_narrator_name_lookup mn nn).1 (normalize mn r) = none ∧
          normalize mn r ∈ (build_narrator_name_lookup mn nn).2.1)) ∧
      (∀ F, ((alookup (build_narrator_name_lookup mn nn).1 F).isSome = true ∧
          F ∉ (build_narrator_name_lookup mn nn).2.1) ↔
        (alookup (build_narrator_name_lookup mn nn).1 F).isSome = true) := by
  intro mn objs nn
  refine ⟨?_, ?_, ?_, ?_⟩
  · intro i norm h
    exact accum_split_exactly_one _ i norm h
  · intro F
    constructor
    · exact fun h => h.1
    · intro hs
      exact ⟨hs, fun hc => accum_split_disjoint (shamelaClaims mn objs) F ⟨hs, hc⟩⟩
  · intro i names r h1 hr hF
    have hns : normalize mn r ∈ normSetOf mn names :=
      normSetOf_mem mn names [] r hr hF
    have hc : (i, normalize mn r) ∈ narratorClaims (idToNorms mn nn) :=
      narratorClaims_mem _ i _ _
        (idToNorms_mem mn nn i names h1 (List.ne_nil_of_mem hns)) hns
    rw [(bnl_proj mn nn).1, (bnl_proj mn nn).2]
    exact accum_split_exactly_one _ i (normalize mn r) hc
  · intro F
    rw [(bnl_proj mn nn).1, (bnl_proj mn nn).2]
    constructor
    · exact fun h => h.1
    · intro hs
      exact ⟨hs, fun hc =>
        accum_split_disjoint (narratorClaims (idToNorms mn nn)) F ⟨hs, hc⟩⟩

/-- C10 witness: the partition and guard collapse at concrete sources. -/
theorem c10_partition_witness :
    (((alookup (build_shamela_lookup mnModel [objColl]).1 (str "ب")).isSome = true ∧
        str "ب" ∉ (build_shamela_lookup mnModel [objColl]).2) ∨
      (alookup (build_shamela_lookup mnModel [objColl]).1 (str "ب") = none ∧
        str "ب" ∈ (build_shamela_lookup mnModel [objColl]).2)) ∧
    (((alookup (build_narrator_name_lookup mnModel nnColl).1
          (normalize mnModel (str "ب"))).isSome = true ∧
        normalize mnModel (str "ب") ∉ (build_narrator_name_lookup mnModel nnColl).2.1) ∨
      (alookup (build_narrator_name_lookup mnModel nnColl).1
          (normalize mnModel (str "ب")) = none ∧
        normalize mnModel (str "ب") ∈ (build_narrator_name_lookup mnModel nnColl).2.1)) ∧
    (((alookup (build_shamela_lookup mnModel [objColl]).1 (str "ا")).isSome = true ∧
        str "ا" ∉ (build_shamela_lookup mnModel [objColl]).2) ↔
      (alookup (build_shamela_lookup mnModel [objColl]).1 (str "ا")).isSome = true) :=
  ⟨(c10_partition_guard_redundant mnModel [objColl] nnColl).1 (str "1") (str "ب")
      (by decide),
   (c10_partition_guard_redundant mnModel [objColl] nnColl).2.2.1 (str "1") [str "ب"]
      (str "ب") (by decide) (by decide) (by decide),
   (c10_partition_guard_redundant mnModel [objColl] nnColl).2.1 (str "ا")⟩

/-- C2: evaluating the committed Pass 4 on a record whose unique matching
Shamela block carries the chain `["9", "2"]` — the code assigns the extra
identities in sorted-id order (`"2"` to the first null slot, `"9"` to the
second), not in the secondary block's chain order `["9", "2"]` as both the
claim and the function's own docstring ("assign those IDs positionally
(same chain order in both sources)") require. -/
theorem c2_pass4_sorted_not_chain_order :
    resolvePass4 mnModel idxP4 [hP4] =
      [⟨[[⟨str "ا", some (str "2"), some "matn_chain_match", false⟩,
          ⟨str "ب", some (str "9"), some "matn_chain_match", false⟩]],
        [str "مممممممممممممممممممم"]⟩] ∧
    (idxP4.map (fun p => p.2.map (fun b => b.narrator_ids))) = [[[str "9", str "2"]]] ∧
    sortStrs [str "9", str "2"] = [str "2", str "9"] := by
  exact ⟨by decide, by decide, by decide⟩

/-- C3, counterexample: `normalize` strips only one leading waw, so on
`"وو"` the normalized form is `"و"` and a second application strips it
again; moreover, since `.` in the non-greedy `\(.*?\)` cannot match a
newline, the parenthetical of `"(\n)"` survives the first application (the
newline then collapses to a space, giving `"( )"`), and the second
application removes the now single-line pair — `normalize` is not
idempotent in either case. -/
theorem c3_counterexample :
    normalize mnModel (normalize mnModel (str "وو")) ≠ normalize mnModel (str "وو") ∧
    normalize mnModel (str "(\n)") = str "( )" ∧
    normalize mnModel (normalize mnModel (str "(\n)")) ≠ normalize mnModel (str "(\n)") := by
  exact ⟨by decide, by decide, by decide⟩

/-- C5, counterexample: for a chain's first mention (empty student name) the
context key `"ب|"` is present and its canonical name resolves to `"7"`, yet
the pipeline leaves the mention unresolved — Pass 2 is skipped entirely
when the successor name is empty, so the claimed `context_mapping`
resolution never happens. -/
theorem c5_counterexample :
    alookup tablesFM.ctx (str "ب" ++ '|' :: ([] : Str)) = some (str "ج") ∧
    lookupCanonical mnModel (str "ج") tablesFM.shL tablesFM.shC tablesFM.naL
      tablesFM.naC tablesFM.naIdx = some (str "7") ∧
    resolveStep mnModel tablesFM [] nFM =
      { nFM with narrator_id := none, narrator_id_resolution := none } ∧
    (resolveStep mnModel tablesFM [] nFM).narrator_id_resolution ≠ some "context_mapping" := by
  exact ⟨by decide, by decide, by decide, by decide⟩

/-- C7, counterexample: an unmatched opening parenthesis survives
`normalize` (the non-greedy paren pattern cannot match it and the
punctuation class does not contain parentheses), so the output can contain
`'('`, contrary to the claim; even a matched pair survives when a newline
separates it, since `.` does not match `'\n'` — `"(\n)"` comes through as
`"( )"`, a matched pair in the output. -/
theorem c7_counterexample :
    '(' ∈ normalize mnModel (str "(ابو") ∧
    normalize mnModel (str "(\n)") = str "( )" ∧
    List.Sublist ['(', ')'] (normalize mnModel (str "(\n)")) := by
  exact ⟨by decide, by decide, by decide⟩

/-- C3, amended: `normalize` is idempotent on every input whose normalized
form neither begins with the waw connector `'و'` (a second application
strips one more leading waw) nor contains a `'('` later followed by a
`')'` (a pair whose interior spans a newline survives the first
application, and after the whitespace collapse the second application can
match and remove it, as the counterexample shows). -/
theorem c3_normalize_idem_no_waw_no_pair :
    ∀ (mn : Char → Bool), mn 'ا' = false → mn 'ي' = false → mn 'و' = false →
      mn 'ه' = false → mn ' ' = false → ∀ (x : Str),
      (normalize mn x).head? ≠ some 'و' →
      ¬ List.Sublist ['(', ')'] (normalize mn x) →
      normalize mn (normalize mn x) = normalize mn x := by
  intro mn ha hy hw hh hs x hwaw hNP
  have hg := normalize_good mn ha hy hw hh hs x
  have hinv := collapseWs_invariants (stripLeadingWaw (List.map unifyChar (stripPunct
    (stripParens (stripMn mn (stripTashkeel x))))))
  set y := normalize mn x with hy2
  have h1 : stripTashkeel y = y := by
    refine filter_eq_self_of _ y (fun c hc => ?_)
    have := (hg c hc).1
    simp [this]
  have h2 : stripMn mn y = y := by
    refine filter_eq_self_of _ y (fun c hc => ?_)
    have := (hg c hc).2.1
    simp [this]
  have h3 : stripParens y = y := stripParens_fix y hNP
  have h4 : stripPunct y = y := by
    refine filter_eq_self_of _ y (fun c hc => ?_)
    have := (hg c hc).2.2.1
    simpa using this
  have h5 : y.map unifyChar = y := map_id_of unifyChar y (fun c hc => (hg c hc).2.2.2.1)
  have h6 : stripLeadingWaw y = y := by
    cases hcy : y with
    | nil => rfl
    | cons c rest =>
      have hcw : ¬(c = 'و') := by
        intro he
        apply hwaw
        rw [hcy, he]
        rfl
      simp [stripLeadingWaw, hcw]
  have hzeq : collapseWs (stripLeadingWaw (List.map unifyChar (stripPunct (stripParens
      (stripMn mn (stripTashkeel x)))))) = y := rfl
  rw [hzeq] at hinv
  have h7 : collapseWs y = y := collapseWs_fix y hinv.1 hinv.2.1 hinv.2.2.1 hinv.2.2.2
  show collapseWs (stripLeadingWaw (List.map unifyChar (stripPunct (stripParens
    (stripMn mn (stripTashkeel y)))))) = y
  rw [h1, h2, h3, h4, h5, h6, h7]

/-- C3 witness: idempotence at a concrete name whose normalized form starts
with a letter other than waw and keeps no parenthesis pair. -/
theorem c3_idem_witness :
    normalize mnModel (normalize mnModel (str "أَبو (1) هريرة،")) =
      normalize mnModel (str "أَبو (1) هريرة،") :=
  c3_normalize_idem_no_waw_no_pair mnModel (by decide) (by decide) (by decide) (by decide)
    (by decide) (str "أَبو (1) هريرة،") (by decide) (by decide)

/-- C7, amended: `normalize` output never contains a punctuation-set
character, a tashkeel mark, or an Mn-category mark; parentheses, however,
can survive — an unmatched `'('` cannot be matched by the non-greedy paren
pattern, and even a matched pair survives when its interior spans a
newline, since `.` does not match `'\n'`, as the counterexample shows. -/
theorem c7_normalize_output_clean :
    ∀ (mn : Char → Bool), mn 'ا' = false → mn 'ي' = false → mn 'و' = false →
      mn 'ه' = false → mn ' ' = false → ∀ (x : Str),
      ∀ c ∈ normalize mn x, punctChars.contains c = false ∧ isTashkeel c = false ∧
        mn c = false := by
  intro mn ha hy hw hh hs x c hc
  have hg := normalize_good mn ha hy hw hh hs x c hc
  exact ⟨hg.2.2.1, hg.1, hg.2.1⟩

/-- C7 witness: the clean-output guarantee instantiated at the surviving
unmatched parenthesis of a concrete dirty input. -/
theorem c7_output_clean_witness :
    punctChars.contains '(' = false ∧ isTashkeel '(' = false ∧ mnModel '(' = false :=
  c7_normalize_output_clean mnModel (by decide) (by decide) (by decide) (by decide)
    (by decide) (str "(أَبو، هريرة") '(' (by decide)

/-- C4: Pass 4 is conservative — on any record whose matn fingerprint
matches zero or more than one secondary block, or whose extra-identity
count differs from its null-slot count, `resolve_pass4_matn` leaves the
record exactly as it was (so previously-unresolved mentions keep
`narrator_id = null` and `narrator_id_resolution = null`). -/
theorem c4_pass4_conservative :
    ∀ (mn : Char → Bool) (idx : List (Str × List BlockEntry)) (h : Hadith)
      (m0 : Str) (ms : List Str),
      h.matn_segments = m0 :: ms →
      (((alookup idx ((normalize mn m0).take 100)).getD []).length ≠ 1 ∨
        (∃ b, (alookup idx ((normalize mn m0).take 100)).getD [] = [b] ∧
          (b.narrator_ids.filter (fun i => i ∉ resolvedIds h)).length ≠ countNulls h)) →
      pass4One mn idx h = h := by
  intro mn idx h m0 ms hm hcond
  unfold pass4One
  split
  · rfl
  · rw [hm]
    dsimp only
    cases hl : (alookup idx ((normalize mn m0).take 100)).getD [] with
    | nil => rfl
    | cons b tl =>
      cases tl with
      | nil =>
        dsimp only
        rcases hcond with hlen | ⟨b2, hb2, hne⟩
        · rw [hl] at hlen; simp at hlen
        · rw [hl] at hb2
          cases hb2
          rw [if_neg hne]
      | cons b2 tl2 => rfl

/-- C4 witness: a record whose fingerprint matches two secondary blocks is
returned unchanged. -/
theorem c4_witness : pass4One mnModel idxDup hDup = hDup :=
  c4_pass4_conservative mnModel idxDup hDup (str "مممممممممممممممممممم") [] rfl
    (Or.inl (by decide))

/-- C5, amended: when the successor (student) name is empty — in particular
for a chain's first mention — Pass 2 is skipped entirely: the result does
not depend on the context-mapping table, the chain loop does hand the first
mention an empty student, and such a mention is never tagged
`context_mapping`. -/
theorem c5_first_mention_skips_pass2 :
    ∀ (mn : Char → Bool) (T : Tables) (ctx2 : List (Str × Str)) (n : Narrator)
      (rest : List Narrator),
      resolveStep mn T [] n = resolveStep mn { T with ctx := ctx2 } [] n ∧
      (resolveChain mn T (n :: rest)).head? = some (resolveStep mn T [] n) ∧
      (resolveStep mn T [] n).narrator_id_resolution ≠ some "context_mapping" := by
  intro mn T ctx2 n rest
  obtain ⟨shL, shC, ctx, nmm, naL, naC, naIdx⟩ := T
  refine ⟨?_, ?_, ?_⟩
  · unfold resolveStep
    rw [pass2Ctx_empty_student, pass2Ctx_empty_student]
    rfl
  · simp [resolveChain, resolveChainAux]
  · unfold resolveStep
    split
    · simp
    · rw [pass2Ctx_empty_student]
      unfold applyResult
      split
      · rcases pass3Nm_snd mn ⟨shL, shC, ctx, nmm, naL, naC, naIdx⟩ n.name
          (pass1Sh ⟨shL, shC, ctx, nmm, naL, naC, naIdx⟩ (normalize mn n.name)) with h3 | h3
        · dsimp only
          rw [h3]
          simp
        · dsimp only
          rw [h3]
          rcases pass1Sh_snd ⟨shL, shC, ctx, nmm, naL, naC, naIdx⟩
            (normalize mn n.name) with h1 | h1
          · rw [h1]; simp
          · rw [h1]; simp
      · simp

/-- C6: pass precedence — (0) a mention already carrying an identity is
tagged `exact_match` and otherwise untouched; (1) when Pass 1 applies, the
result is the Pass-1 assignment with tag `shamela_cross_ref` whatever the
context and name tables would say; (4) Pass 4 never modifies a mention
whose identity is set. -/
theorem c6_pass_precedence :
    (∀ (mn : Char → Bool) (T : Tables) (student : Str) (n : Narrator) (i : Ident),
      n.narrator_id = some i →
      resolveStep mn T student n = { n with narrator_id_resolution := some "exact_match" }) ∧
    (∀ (mn : Char → Bool) (T : Tables) (student : Str) (n : Narrator) (i : Ident),
      n.narrator_id = none →
      alookup T.shL (normalize mn n.name) = some i →
      normalize mn n.name ∉ T.shC →
      i ≠ [] →
      resolveStep mn T student n =
        { n with narrator_id := some i,
                 narrator_id_resolution := some "shamela_cross_ref",
                 ambiguous := false }) ∧
    (∀ (mn : Char → Bool) (idx : List (Str × List BlockEntry)) (h : Hadith),
      List.Forall₂ (List.Forall₂ (fun a b => a.narrator_id.isSome = true → b = a))
        h.chains (pass4One mn idx h).chains) := by
  refine ⟨?_, ?_, ?_⟩
  · intro mn T student n i h0
    unfold resolveStep
    rw [h0]
    simp
  · intro mn T student n i h0 h1 h2 h3
    have hp1 : pass1Sh T (normalize mn n.name) = (some i, some "shamela_cross_ref") := by
      unfold pass1Sh
      rw [if_pos ⟨by rw [h1]; rfl, h2⟩, h1]
    unfold resolveStep
    rw [h0]
    simp only [Option.isSome_none, Bool.false_eq_true, if_false]
    rw [hp1]
    have hp2 : pass2Ctx mn T n.name student (some i, some "shamela_cross_ref") =
        (some i, some "shamela_cross_ref") := by
      unfold pass2Ctx
      rw [if_neg]
      simp
    rw [hp2]
    have hp3 : pass3Nm mn T n.name (some i, some "shamela_cross_ref") =
        (some i, some "shamela_cross_ref") := by
      unfold pass3Nm
      rw [if_neg]
      simp
    rw [hp3]
    unfold applyResult
    rw [if_pos]
    cases i with
    | nil => exact absurd rfl h3
    | cons a as => simp [truthy]
  · intro mn idx h
    exact pass4One_forall2 mn idx h

/-- C6 witness: a carried-forward mention keeps its identity and gets
`exact_match`; a Pass-1 hit gets `shamela_cross_ref`. -/
theorem c6_witness :
    resolveStep mnModel tablesSh [] (⟨str "ب", some (str "3"), none, false⟩ : Narrator) =
      { (⟨str "ب", some (str "3"), none, false⟩ : Narrator) with
          narrator_id_resolution := some "exact_match" } ∧
    resolveStep mnModel tablesSh [] (⟨str "ا", none, none, false⟩ : Narrator) =
      { (⟨str "ا", none, none, false⟩ : Narrator) with
          narrator_id := some (str "5"),
          narrator_id_resolution := some "shamela_cross_ref",
          ambiguous := false } :=
  ⟨c6_pass_precedence.1 mnModel tablesSh [] _ (str "3") rfl,
   c6_pass_precedence.2.1 mnModel tablesSh [] _ (str "5") rfl (by decide) (by decide)
     (by decide)⟩

/-- C9: after `resolve` (Passes 0–3) followed by `resolve_pass4_matn`,
every mention's `narrator_id` and `narrator_id_resolution` are set or unset
together. -/
theorem c9_id_and_tag_paired :
    ∀ (mn : Char → Bool) (T : Tables) (idx : List (Str × List BlockEntry))
      (hs : List Hadith),
      ∀ h2 ∈ resolvePass4 mn idx (resolveHadiths mn T hs), ∀ c ∈ h2.chains, ∀ n ∈ c,
        n.narrator_id.isSome = n.narrator_id_resolution.isSome := by
  intro mn T idx hs h2 hmem
  rcases List.mem_map.mp hmem with ⟨h1, hm1, rfl⟩
  rcases List.mem_map.mp hm1 with ⟨h0, _, rfl⟩
  apply pass4One_paired
  intro c hc n hn
  rcases List.mem_map.mp hc with ⟨c0, _, rfl⟩
  rcases resolveChainAux_mem mn T c0 0 c0 n hn with ⟨s, m, rfl⟩
  exact resolveStep_paired mn T s m

/-- C9 witness: the invariant at a concrete mention of the concrete Pass-4
output. -/
theorem c9_witness :
    (⟨str "ا", some (str "2"), some "matn_chain_match", false⟩ : Narrator).narrator_id.isSome =
      (⟨str "ا", some (str "2"), some "matn_chain_match",
        false⟩ : Narrator).narrator_id_resolution.isSome :=
  c9_id_and_tag_paired mnModel tablesEmpty idxP4 [hP4]
    ⟨[[⟨str "ا", some (str "2"), some "matn_chain_match", false⟩,
       ⟨str "ب", some (str "9"), some "matn_chain_match", false⟩]],
     [str "مممممممممممممممممممم"]⟩ (by decide)
    [⟨str "ا", some (str "2"), some "matn_chain_match", false⟩,
     ⟨str "ب", some (str "9"), some "matn_chain_match", false⟩] (by decide)
    ⟨str "ا", some (str "2"), some "matn_chain_match", false⟩ (by decide)

/-- C8: end-to-end scenario B — with `"10"` and `"11"` both owning
`"عايشه بنت"` (a collision of `build_narrator_name_lookup`), `"10"` also
owning `"عايشه بنت ابي بكر"` and `"11"` also owning `"عايشه بنت سعد"`, the
canonical name `"عائشة بنت أبي بكر"` resolves to `"10"`, and the
positive-fit strategy on the collided prefix selects exactly `"10"`. -/
theorem c8_scenario_b :
    str "عايشه بنت" ∈ bnlB.2.1 ∧
    lookupCanonical mnModel (str "عائشة بنت أبي بكر") [] [] bnlB.1 bnlB.2.1
      (some bnlB.2.2) = some (str "10") ∧
    positiveIds ((alookup bnlB.2.2 (str "عايشه بنت")).getD [])
      (str "عايشه بنت") (normalize mnModel (str "عائشة بنت أبي بكر")) = [str "10"] := by
  exact ⟨by decide, by decide, by decide⟩

end Resolver
